import Mathlib

/-!
# SmartAgent2 memory engine: a shallow embedding of the core, with proofs

This file embeds the core algorithms of the SmartAgent2 memory engine
(`src/core/extractor.py`, `src/core/retriever.py`, `src/core/forgetter.py`,
`src/core/controller.py`, plus the local document store
`src/storage/local/document_store.py`) as executable Lean definitions and
proves properties of them.

Modelling conventions:
* Python floats become exact rationals (`ℚ`); timestamps (ISO strings /
  `datetime`) become integers counting seconds (`ℤ`); `timedelta.days`
  becomes flooring division by 86400.
* The document store is a list of episodic documents in table order;
  SQLite `ORDER BY` is modelled by a stable insertion sort, matching
  Python's stable `list.sort`.
* The LLM / embedding capabilities and the vector / graph / FTS backends
  are opaque to the core; their outputs (candidate lists, FTS result
  lists, similarity scores) enter the embedded functions as parameters.
* `try/except` soft-fail control flow is modelled with `Except`; call
  sites that the Python code guards individually take an `Except` outcome
  parameter.
* Document fields that none of the embedded operations read or write
  (e.g. `event_type`, `agent_id`, `confidence`) are omitted from the
  document record.
-/

unseal Rat.mul Rat.add Rat.sub Rat.inv

namespace SmartAgent2

/-! ## List utilities

Stable sorting (Python's `list.sort` / `sorted` are stable; SQLite
`ORDER BY` is modelled the same way).  We use a structurally recursive
insertion sort so that concrete runs reduce inside the kernel. -/

/-- Insert `a` into `l`, before the first element `b` with `le a b`.
Processing from the right (`sortBy`), this yields a stable sort. -/
def insertLe (le : α → α → Bool) (a : α) : List α → List α
  | [] => [a]
  | b :: bs => if le a b then a :: b :: bs else b :: insertLe le a bs

/-- Stable insertion sort by the boolean comparison `le`. -/
def sortBy (le : α → α → Bool) : List α → List α
  | [] => []
  | a :: as => insertLe le a (sortBy le as)

structure EpDoc where
  id : String
  user_id : String
  lossless_restatement : String
  summary : String
  importance : ℚ
  access_count : ℕ
  last_accessed_at : Option ℤ
  created_at : ℤ
  updated_at : ℤ
  is_archived : Bool
  is_compressed : Bool
  merged_from : List String
  deriving Repr, DecidableEq

/-- The `episodic_memories` table, in row order. -/
abbrev Store := List EpDoc

/-- Every document id occurs at most once (the `id TEXT PRIMARY KEY`
column of the SQLite schema). -/
abbrev nodupIds (s : Store) : Prop := (s.map (·.id)).Nodup

/-- `IDocumentRepo.find_by_id`: first row whose id matches. -/
def findById (s : Store) (i : String) : Option EpDoc :=
  s.find? (fun d => d.id == i)

/-- The filter of the query `{"user_id": u, "is_archived": 0}`. -/
def activeFor (u : String) (d : EpDoc) : Bool :=
  d.user_id == u && !d.is_archived

/-- All rows matching `{"user_id": u, "is_archived": 0}`, in table order. -/
def activeDocs (s : Store) (u : String) : Store :=
  s.filter (activeFor u)

/-- `IDocumentRepo.count` with query `{"user_id": u, "is_archived": 0}`. -/
def activeCount (s : Store) (u : String) : ℕ :=
  (activeDocs s u).length

/-- `ORDER BY created_at asc`. -/
def byCreatedAsc (a b : EpDoc) : Bool := a.created_at ≤ b.created_at

/-- `ORDER BY importance asc`. -/
def byImportanceAsc (a b : EpDoc) : Bool := a.importance ≤ b.importance

/-- `IDocumentRepo.update(collection, i, {"is_archived": True})`.  The
local document store additionally stamps `updated_at` on every update
(`LocalDocumentRepo.update`). -/
def archiveId (now : ℤ) (i : String) (s : Store) : Store :=
  s.map (fun d => if d.id = i then
    { d with is_archived := true, updated_at := now } else d)

/-- `IDocumentRepo.update(collection, i, {"merged_from": mf,
"is_compressed": True})`, with the `updated_at` stamp. -/
def compressMark (now : ℤ) (i : String) (mf : List String) (s : Store) : Store :=
  s.map (fun d => if d.id = i then
    { d with merged_from := mf, is_compressed := true, updated_at := now } else d)

/-- `IDocumentRepo.delete`: remove the row(s) with the given id. -/
def deleteId (i : String) (s : Store) : Store :=
  s.filter (fun d => !(d.id == i))

/-- The vector index's `episodic` collection, as the list of stored
memory ids (the embedding payloads are irrelevant to the claims). -/
abbrev VecStore := List String

/-- `IVectorRepo.delete(memory_id, "episodic")`. -/
def vecDelete (i : String) (vs : VecStore) : VecStore :=
  vs.filter (fun x => !(x == i))

/-! ## Forgetter (`src/core/forgetter.py`)

The embedding capability's `similarity` enters as a parameter
`sim : String → String → ℚ`; `now` is the wall clock at cycle start. -/

/-- `ForgettingConfig` (`src/models/query.py`).  Pydantic bounds
(thresholds in `[0,1]`, `max_memories_per_user ≥ 100`) are carried as
hypotheses where a proof needs them. -/
structure ForgettingCfg where
  importance_threshold : ℚ
  time_decay_factor : ℚ
  access_boost_factor : ℚ
  similarity_threshold : ℚ
  max_memories_per_user : ℕ
  archive_instead_of_delete : Bool := true
  deriving Repr, DecidableEq

/-- `(datetime.now() - created_at).days`: whole-day floor of the
difference (Python `timedelta.days` floors toward minus infinity). -/
def daysOld (now created : ℤ) : ℤ := (now - created).fdiv 86400

/-- `MemoryForgetter._calculate_effective_importance`.  The Python code
computes `min(base * decay ** days + min(boost_factor * access, 0.3), 1.0)`
(the date-parse fallback `days_old = 0` cannot trigger in the model). -/
def calcEffectiveImportance (cfg : ForgettingCfg) (now : ℤ) (m : EpDoc) : ℚ :=
  let base := m.importance
  let time_decay := cfg.time_decay_factor ^ daysOld now m.created_at
  let access_boost := min (cfg.access_boost_factor * (m.access_count : ℚ)) (3/10)
  min (base * time_decay + access_boost) 1

/-- Mutable state of `MemoryForgetter._compress_similar`'s nested loop:
the in-memory snapshot `low` (whose dicts the Python code mutates in
place when appending to a keeper's `merged_from`), the document store,
the `merged_ids` set and the running count. -/
structure CompState where
  low : List (EpDoc × ℚ)
  store : Store
  merged : List String
  count : ℕ

/-- One merge of `_compress_similar`: keep the pair member with the
higher effective importance, append the other's id to the keeper's
`merged_from` (both in the snapshot, mirroring Python's in-place list
mutation, and in the store), mark the keeper compressed, archive the
discarded one, and record the discarded id in `merged_ids`. -/
def compMerge (now : ℤ) (ei ej : EpDoc × ℚ) (st : CompState) : CompState :=
  let keep := if ei.2 ≥ ej.2 then ei else ej
  let discard := if ei.2 ≥ ej.2 then ej else ei
  let mf := keep.1.merged_from ++ [discard.1.id]
  { low := st.low.map (fun e => if e.1.id = keep.1.id then
      ({ e.1 with merged_from := mf }, e.2) else e),
    store := archiveId now discard.1.id
      (compressMark now keep.1.id mf st.store),
    merged := discard.1.id :: st.merged,
    count := st.count + 1 }

/-- Inner loop `for j in range(i + 1, len(low_importance))` of
`_compress_similar`; note the code re-reads `low_importance[i]` at every
`j` and only re-checks membership of `low_importance[j]` in
`merged_ids`. -/
def compInner (cfg : ForgettingCfg) (sim : String → String → ℚ) (now : ℤ)
    (i : ℕ) : List ℕ → CompState → CompState
  | [], st => st
  | j :: js, st =>
    match st.low.get? i, st.low.get? j with
    | some ei, some ej =>
      if st.merged.contains ej.1.id then compInner cfg sim now i js st
      else if sim ei.1.lossless_restatement ej.1.lossless_restatement >
          cfg.similarity_threshold then
        compInner cfg sim now i js (compMerge now ei ej st)
      else compInner cfg sim now i js st
    | _, _ => compInner cfg sim now i js st

/-- Outer loop `for i in range(len(low_importance))` of
`_compress_similar`. -/
def compOuter (cfg : ForgettingCfg) (sim : String → String → ℚ) (now : ℤ) :
    List ℕ → CompState → CompState
  | [], st => st
  | i :: rest, st =>
    match st.low.get? i with
    | some ei =>
      if st.merged.contains ei.1.id then compOuter cfg sim now rest st
      else compOuter cfg sim now rest
        (compInner cfg sim now i (List.range' (i + 1) (st.low.length - (i + 1))) st)
    | none => compOuter cfg sim now rest st

/-- The final loop state of `MemoryForgetter._compress_similar`:
restrict to effective importance below `2 × importance_threshold`, then
run the pairwise merge loops (skipped entirely when fewer than 2
candidates qualify). -/
def compressSimilarSt (cfg : ForgettingCfg) (sim : String → String → ℚ)
    (now : ℤ) (scored : List (EpDoc × ℚ)) (store : Store) : CompState :=
  let low := scored.filter (fun p => p.2 < cfg.importance_threshold * 2)
  if low.length < 2 then { low := low, store := store, merged := [], count := 0 }
  else compOuter cfg sim now (List.range low.length)
    { low := low, store := store, merged := [], count := 0 }

/-- `MemoryForgetter._compress_similar`: the merge count and resulting
store. -/
def compressSimilar (cfg : ForgettingCfg) (sim : String → String → ℚ)
    (now : ℤ) (scored : List (EpDoc × ℚ)) (store : Store) : ℕ × Store :=
  ((compressSimilarSt cfg sim now scored store).count,
   (compressSimilarSt cfg sim now scored store).store)

/-- One iteration of step 4 of `run_forgetting_cycle`: archive (or
hard-delete, with the vector index) a scored memory if its effective
importance is below `importance_threshold`. -/
def thresholdStep (cfg : ForgettingCfg) (now : ℤ)
    (acc : Store × VecStore × ℕ × ℕ) (p : EpDoc × ℚ) :
    Store × VecStore × ℕ × ℕ :=
  if p.2 < cfg.importance_threshold then
    if cfg.archive_instead_of_delete then
      (archiveId now p.1.id acc.1, acc.2.1, acc.2.2.1 + 1, acc.2.2.2)
    else
      (deleteId p.1.id acc.1, vecDelete p.1.id acc.2.1, acc.2.2.1, acc.2.2.2 + 1)
  else acc

/-- Step 4 of `run_forgetting_cycle` over all scored memories. -/
def thresholdPass (cfg : ForgettingCfg) (now : ℤ)
    (scored : List (EpDoc × ℚ)) (store : Store) (vec : VecStore) :
    Store × VecStore × ℕ × ℕ :=
  scored.foldl (thresholdStep cfg now) (store, vec, 0, 0)

/-- Step 5 of `run_forgetting_cycle`: if the user's active count exceeds
`max_memories_per_user`, archive the overflow in stored-importance
order. -/
def capacityPass (cfg : ForgettingCfg) (now : ℤ) (u : String) (store : Store) :
    Store × ℕ :=
  let total := activeCount store u
  if total > cfg.max_memories_per_user then
    let overflow := total - cfg.max_memories_per_user
    let oldest := (sortBy byImportanceAsc (activeDocs store u)).take overflow
    (oldest.foldl (fun st m => archiveId now m.id st) store, oldest.length)
  else (store, 0)

/-- `ForgettingResult` (`src/models/query.py`); the elapsed time and the
human-readable `details` trail are not modelled. -/
structure ForgettingRes where
  total_scanned : ℕ
  memories_compressed : ℕ
  memories_archived : ℕ
  memories_deleted : ℕ
  deriving Repr, DecidableEq

/-- Step 1 of `run_forgetting_cycle`: the scanned memories — at most
`2 × max_memories_per_user` active documents of the user, created_at
ascending. -/
def scannedMemories (cfg : ForgettingCfg) (u : String) (store : Store) :
    List EpDoc :=
  (sortBy byCreatedAsc (activeDocs store u)).take
    (cfg.max_memories_per_user * 2)

/-- Step 2 of `run_forgetting_cycle`: the scanned memories paired with
their effective importance. -/
def scoredOf (cfg : ForgettingCfg) (now : ℤ) (u : String) (store : Store) :
    List (EpDoc × ℚ) :=
  (scannedMemories cfg u store).map
    (fun m => (m, calcEffectiveImportance cfg now m))

/-- `MemoryForgetter.run_forgetting_cycle`: load at most
`2 × max_memories_per_user` active memories (created_at ascending),
score them, compress, threshold-archive/delete, then enforce the
capacity cap. -/
def runForgettingCycle (cfg : ForgettingCfg) (sim : String → String → ℚ)
    (now : ℤ) (u : String) (store : Store) (vec : VecStore) :
    ForgettingRes × Store × VecStore :=
  let memories := scannedMemories cfg u store
  if memories.isEmpty then
    ({ total_scanned := 0, memories_compressed := 0,
       memories_archived := 0, memories_deleted := 0 }, store, vec)
  else
    let scored := scoredOf cfg now u store
    let comp := compressSimilar cfg sim now scored store
    let thr := thresholdPass cfg now scored comp.2 vec
    let cap := capacityPass cfg now u thr.1
    ({ total_scanned := memories.length, memories_compressed := comp.1,
       memories_archived := thr.2.2.1 + cap.2,
       memories_deleted := thr.2.2.2 }, cap.1, thr.2.1)

/-! ## Retriever (`src/core/retriever.py`)

The three candidate-generation layers feed a per-memory map
`all_candidates : mid ↦ [(score, source_tag)]` (a Python dict in
insertion order, embedded as an association list).  The upstream outputs
(vector search hits, full-text rows, graph neighbours) enter as
parameters. -/

/-- `all_candidates`: memory id ↦ list of `(score, source tag)`. -/
abbrev Candidates := List (String × List (ℚ × String))

/-- `d.setdefault(k, []).append(v)` on an insertion-ordered dict of
lists: push `v` onto the entry of key `k`, creating it at the end if
absent. -/
def dictPush (d : List (String × List β)) (k : String) (v : β) :
    List (String × List β) :=
  match d with
  | [] => [(k, [v])]
  | (k2, vs) :: rest =>
    if k2 = k then (k2, vs ++ [v]) :: rest else (k2, vs) :: dictPush rest k v

/-- `d.get(k, [])` on such a dict. -/
def dictGetL (d : List (String × List β)) (k : String) : List β :=
  match d.find? (fun p => p.1 == k) with
  | some p => p.2
  | none => []

/-- Layer 2 of `_retrieve_episodic`: the full-text search string is the
joined keywords, or the raw query when no keywords were extracted. -/
def lexicalSearchText (keywords : List String) (query : String) : String :=
  if keywords.isEmpty then query else String.intercalate " " keywords

/-- Layer 2 of `_retrieve_episodic`: enumerate the FTS rows, skip rows
of other users, and score `max(0.3, 1.0 - i * 0.1)` where `i` is the
row's position in the full FTS result list. -/
def lexicalCandidates (userId : String) (fts : List EpDoc) : List (String × ℚ) :=
  fts.enum.filterMap (fun p =>
    if p.2.user_id = userId then
      some (p.2.id, max (3/10) (1 - (p.1 : ℚ) * (1/10)))
    else none)

/-- A row of `IGraphRepo.get_neighbors`: the neighbour node's id, its
`name`/`summary` properties (absent ones become `""`, as with
`props.get(..., "")`), and the edge weight. -/
structure GNeighbor where
  node_id : String
  name : String
  summary : String
  weight : ℚ
  deriving Repr, DecidableEq

/-- Boolean list-prefix test. -/
def isPrefixB [DecidableEq α] : List α → List α → Bool
  | [], _ => true
  | _ :: _, [] => false
  | a :: as, b :: bs => a = b && isPrefixB as bs

/-- Boolean list-infix test. -/
def isInfixB [DecidableEq α] (needle : List α) : List α → Bool
  | [] => isPrefixB needle []
  | b :: rest => isPrefixB needle (b :: rest) || isInfixB needle rest

/-- Python `needle in hay` on strings. -/
def strContains (hay needle : String) : Bool :=
  isInfixB needle.data hay.data

/-- Layer 3 of `_retrieve_episodic`: keep neighbours whose lowered
name/summary contains some lowered keyword (`kws` is
`intent_info.get("search_keywords", [query])`) and whose node id is an
episodic-memory id; score `0.6 × edge weight`. -/
def graphCandidates (kws : List String) (neighbors : List GNeighbor) :
    List (String × ℚ) :=
  neighbors.filterMap (fun nb =>
    if kws.any (fun kw => strContains nb.summary.toLower kw.toLower ||
        strContains nb.name.toLower kw.toLower) then
      if nb.node_id.startsWith "mem_ep_" then
        some (nb.node_id, 3/5 * nb.weight)
      else none
    else none)

/-- Assembly of `all_candidates` in `_retrieve_episodic`: vector hits
are tagged `"semantic"`, FTS hits `"lexical"`, graph hits `"graph"`,
in that order. -/
def episodicCandidates (vec : List (String × ℚ)) (lex : List (String × ℚ))
    (graph : List (String × ℚ)) : Candidates :=
  let c1 := vec.foldl (fun c p => dictPush c p.1 (p.2, "semantic")) []
  let c2 := lex.foldl (fun c p => dictPush c p.1 (p.2, "lexical")) c1
  graph.foldl (fun c p => dictPush c p.1 (p.2, "graph")) c2

/-- `sort(key=lambda x: -x[1])`: stable, score descending. -/
def byScoreDesc (a b : String × ℚ) : Bool := b.2 ≤ a.2

/-- `rrf_scores` accumulation dict:
`rrf_scores[mid] = rrf_scores.get(mid, 0.0) + v`, insertion-ordered. -/
def dictAddQ (d : List (String × ℚ)) (k : String) (v : ℚ) :
    List (String × ℚ) :=
  match d with
  | [] => [(k, v)]
  | (k2, x) :: rest =>
    if k2 = k then (k2, x + v) :: rest else (k2, x) :: dictAddQ rest k v

/-- Dict lookup on the accumulated `rrf_scores`. -/
def dictGetQ (d : List (String × ℚ)) (k : String) : Option ℚ :=
  (d.find? (fun p => p.1 == k)).map (·.2)

/-- Inner loop of `_rrf_fusion`:
`for rank, (mid, _) in enumerate(ranking, start=1): rrf_scores[mid] += 1.0 / (k + rank)`. -/
def rrfAccum (k : ℚ) : ℕ → List (String × ℚ) → List (String × ℚ) →
    List (String × ℚ)
  | _, [], acc => acc
  | rank, (mid, _) :: rest, acc =>
    rrfAccum k (rank + 1) rest (dictAddQ acc mid (1 / (k + (rank : ℚ))))

/-- `source_rankings`: group the candidate entries by source tag, in
dict insertion order. -/
def sourceRankings (cands : Candidates) : List (String × List (String × ℚ)) :=
  cands.foldl (fun acc p =>
    p.2.foldl (fun acc2 sv => dictPush acc2 sv.2 (p.1, sv.1)) acc) []

/-- `MemoryRetriever._rrf_fusion`: sort each source's candidates by its
own score descending, then accumulate `1/(k + rank)` per source, rank
starting at 1. -/
def rrfFusion (k : ℚ) (cands : Candidates) : List (String × ℚ) :=
  let rankings := (sourceRankings cands).map (fun p => (p.1, sortBy byScoreDesc p.2))
  rankings.foldl (fun acc p => rrfAccum k 1 p.2 acc) []

/-- `ScoredMemory` (`src/models/base.py`), with the fields the episodic
pipeline populates.  `source` is kept as the list of contributing tags
(the Python code joins the *set* of tags in unspecified order). -/
structure ScoredMemory where
  memory_id : String
  content : String
  score : ℚ
  sources : List String
  deriving Repr, DecidableEq

/-- Final loop of `_retrieve_episodic`: sort the fused scores
descending, take `top_k`, re-hydrate each id from the document store,
drop missing or archived documents, cap the score at 1. -/
def hydrateResults (s : Store) (cands : Candidates)
    (rrf : List (String × ℚ)) (topK : ℕ) : List ScoredMemory :=
  ((sortBy byScoreDesc rrf).take topK).filterMap (fun p =>
    match findById s p.1 with
    | some doc =>
      if !doc.is_archived then
        some { memory_id := p.1, content := doc.summary,
               score := min p.2 1, sources := (dictGetL cands p.1).map (·.2) }
      else none
    | none => none)

/-- `_retrieve_episodic`, given the three layers' upstream outputs. -/
def retrieveEpisodic (k : ℚ) (s : Store) (vec : List (String × ℚ))
    (lex : List (String × ℚ)) (graph : List (String × ℚ)) (topK : ℕ) :
    List ScoredMemory :=
  let cands := episodicCandidates vec lex graph
  hydrateResults s cands (rrfFusion k cands) topK

/-- `MemoryRetriever._update_access_count`: re-read the document, then
update `access_count` and `last_accessed_at` (the local document store
also stamps `updated_at`). -/
def updateAccessCount (now : ℤ) (s : Store) (mid : String) : Store :=
  match findById s mid with
  | none => s
  | some doc => s.map (fun d => if d.id = mid then
      { d with access_count := doc.access_count + 1,
               last_accessed_at := some now, updated_at := now } else d)

/-- Step 4 of `retrieve`: bump the access count of every returned
episodic memory. -/
def applyAccessUpdates (now : ℤ) (results : List ScoredMemory) (s : Store) :
    Store :=
  results.foldl (fun st m => updateAccessCount now st m.memory_id) s

/-! ## Extractor (`src/core/extractor.py`) -/

/-- Python `range(0, stop, step)` for `step ≥ 1`. -/
def pyRange (stop step : ℕ) : List ℕ :=
  (List.range ((stop + step - 1) / step)).map (· * step)

/-- `step = max(1, window_size - overlap)`. -/
def windowStep (w o : ℕ) : ℕ := max 1 (w - o)

/-- The windows visited by `extract_from_conversation`:
`messages[start:start + window_size]` for each `start` in
`range(0, len(messages), step)`. -/
def slidingWindows (w o : ℕ) (msgs : List α) : List (List α) :=
  (pyRange msgs.length (windowStep w o)).map (fun st => (msgs.drop st).take w)

/-- The windows actually submitted to `_extract_window`: those of at
least 2 messages (`if len(window) < 2: continue`). -/
def processedWindows (w o : ℕ) (msgs : List α) : List (List α) :=
  (slidingWindows w o msgs).filter (fun win => 2 ≤ win.length)

/-- The three persistence writes of `_persist_episodic` /
`_persist_semantic`: document-store insert, vector-index upsert
(embedding + `upsert`), graph-index update. -/
inductive WStep where
  | docInsert
  | vecUpsert
  | graphUpdate
  deriving Repr, DecidableEq

/-- Attempt one write inside the `try` block: it is recorded as
attempted; on success it is also recorded as committed; on failure it
raises, aborting the rest of the block. -/
def attemptWrite (ok : Bool) (w : WStep) (st : List WStep × List WStep) :
    Except (List WStep × List WStep) (List WStep × List WStep) :=
  if ok then .ok (st.1 ++ [w], st.2 ++ [w]) else .error (st.1 ++ [w], st.2)

/-- `_persist_episodic` / `_persist_semantic`: one `try` block sequences
the document insert, the vector upsert and the graph update; the
`except` clause catches any failure and only logs it (the flag), so the
enclosing `extract` call never sees an exception.  Returns
`((attempted, committed), failure_logged)`. -/
def persistFanout (docOk vecOk graphOk : Bool) :
    (List WStep × List WStep) × Bool :=
  match attemptWrite docOk .docInsert ([], []) >>=
      attemptWrite vecOk .vecUpsert >>= attemptWrite graphOk .graphUpdate with
  | .ok st => (st, false)
  | .error st => (st, true)

/-! ## Controller (`src/core/controller.py`)

`chat` is embedded at the granularity of its individually guarded call
sites: the retrieval, profile lookup, system-prompt build, reply
generation and extraction outcomes enter as `Except` values, mirroring
the five `try/except` blocks.  The session-store operations (steps 1, 2
and 7), which the code does not guard, are modelled as succeeding. -/

structure ChatReq where
  session_id : String
  message : String
  include_memory : Bool
  include_profile : Bool
  character_id : Option String
  deriving Repr, DecidableEq

/-- What retrieval returned, as far as `chat` consumes it. -/
structure RetrievalLite where
  episodic : List ScoredMemory
  semantic : List (String × String × String)
  deriving Repr, DecidableEq

structure ChatOutcomes where
  retrieval : Except Unit RetrievalLite
  profile : Except Unit String
  prompt : Except Unit String
  gen : Except Unit String
  extractRun : Except Unit Unit

structure ChatResp where
  response : String
  session_id : String
  memories_used : ℕ
  character_id : String
  deriving Repr, DecidableEq

/-- The fixed degraded reply of step 6 of `chat`. -/
def apologyText : String := "抱歉，我暂时无法回复。请稍后再试。"

/-- The fallback system prompt of step 5 (without the optional memory
suffix, which does not affect the claims). -/
def fallbackPrompt : String := "你是一个友好的 AI 助手。请根据用户的消息进行回复。"

/-- `MemoryController.chat`: each guarded step degrades on failure;
generation failure yields the apology string; the extraction trigger's
outcome never reaches the response. -/
def chat (req : ChatReq) (o : ChatOutcomes) : ChatResp :=
  let memory := if req.include_memory then
      match o.retrieval with
      | .ok r => (some r, r.episodic.length + r.semantic.length)
      | .error _ => ((none : Option RetrievalLite), 0)
    else (none, 0)
  let _userContext := if req.include_profile then
      match o.profile with
      | .ok p => some p
      | .error _ => (none : Option String)
    else none
  let characterId := match req.character_id with
    | some c => if c = "" then "default" else c
    | none => "default"
  let _systemPrompt := match o.prompt with
    | .ok sp => sp
    | .error _ => fallbackPrompt
  let responseText := match o.gen with
    | .ok t => t
    | .error _ => apologyText
  let _extraction := match o.extractRun with
    | .ok _ => ()
    | .error _ => ()
  { response := responseText, session_id := req.session_id,
    memories_used := memory.2, character_id := characterId }

/-! ## General lemmas -/

/-- The fused score of `mid` (0 when the dict has no entry, which
happens exactly when no strategy proposed `mid`). -/
def lookupQ (d : List (String × ℚ)) (k : String) : ℚ :=
  (dictGetQ d k).getD 0

/-- 1-based rank of `mid` in a ranking (position of its first
occurrence plus one). -/
def rankIn (r : List (String × ℚ)) (mid : String) : ℕ :=
  (r.map (·.1)).indexOf mid + 1

/-- Specification-side contribution of one source ranking to `mid`,
starting at rank `rank`: the sum of `1/(k + position)` over the
occurrences of `mid`. -/
def specContrib (k : ℚ) (mid : String) : ℕ → List (String × ℚ) → ℚ
  | _, [] => 0
  | rank, (m, _) :: rest =>
    (if m = mid then 1 / (k + (rank : ℚ)) else 0) + specContrib k mid (rank + 1) rest

/-- A fresh episodic document as `_persist_episodic` first stores it. -/
def mkDoc (i u : String) (imp : ℚ) (acc : ℕ) (created : ℤ) : EpDoc :=
  { id := i, user_id := u, lossless_restatement := "r" ++ i,
    summary := "s" ++ i, importance := imp, access_count := acc,
    last_accessed_at := none, created_at := created, updated_at := 0,
    is_archived := false, is_compressed := false, merged_from := [] }

/-- A similarity capability that reports all pairs as dissimilar
("mutually dissimilar memories"). -/
def simZero : String → String → ℚ := fun _ _ => 0

/-- The forgetting configuration of the spec's 5-memory scenario:
threshold 0.4, decay 1.0, access boost 0, defaults elsewhere. -/
def scenCfg : ForgettingCfg :=
  { importance_threshold := 2/5, time_decay_factor := 1,
    access_boost_factor := 0, similarity_threshold := 17/20,
    max_memories_per_user := 100, archive_instead_of_delete := true }

/-- The spec's 5-memory scenario store: importances
[0.1, 0.3, 0.5, 0.7, 0.9]. -/
def scenStore : Store :=
  [mkDoc "m1" "u" (1/10) 0 1, mkDoc "m2" "u" (3/10) 0 2,
   mkDoc "m3" "u" (5/10) 0 3, mkDoc "m4" "u" (7/10) 0 4,
   mkDoc "m5" "u" (9/10) 0 5]

/-- A forgetting configuration with the smallest admissible capacity
(`max_memories_per_user = 100`, the pydantic lower bound), no time
decay, and a small access boost. -/
def bigCfg : ForgettingCfg :=
  { importance_threshold := 1/4, time_decay_factor := 1,
    access_boost_factor := 1/10, similarity_threshold := 17/20,
    max_memories_per_user := 100, archive_instead_of_delete := true }

/-- A store with 201 active memories of one user — one more than the
cycle's scan limit `2 × max_memories_per_user = 200`.  The 101 oldest
(`a0`…`a100`) have importance 0.21 but effective importance 0.51 thanks
to their access boost; the next 99 (`e0`…`e98`) have importance 0.9;
the newest, `x`, has importance 0.23 — below the threshold 0.25 — and
is the one memory the cycle does not scan. -/
def bigStore : Store :=
  ((List.range 101).map (fun k => mkDoc ("a" ++ toString k) "u" (21/100) 3
    (k : ℤ))) ++
  ((List.range 99).map (fun k => mkDoc ("e" ++ toString k) "u" (9/10) 0
    (101 + k : ℤ))) ++
  [mkDoc "x" "u" (23/100) 0 300]

/-! ## Claim C8: lexical retrieval strategy -/

/-- The fields of a document that the forgetting cycle never rewrites. -/
def core (d : EpDoc) : String × String × String × ℚ × ℕ × ℤ :=
  (d.id, d.user_id, d.lossless_restatement, d.importance,
   d.access_count, d.created_at)

/-- `s2` is reachable from `s` by cycle updates: every document of `s2`
descends from a document of `s` with the same core, and archiving is
never undone. -/
def EvolvedFrom (s s2 : Store) : Prop :=
  ∀ e ∈ s2, ∃ d ∈ s, core e = core d ∧ (d.is_archived = true → e.is_archived = true)

/-- Every document with the given id is archived. -/
def AllArchived (i : String) (s : Store) : Prop :=
  ∀ e ∈ s, e.id = i → e.is_archived = true

/-- The fields of a compression-snapshot entry that the loops never
rewrite: document id, restatement (what `similarity` is called on) and
the pre-computed effective importance. -/
def lowCore (e : EpDoc × ℚ) : String × String × ℚ :=
  (e.1.id, e.1.lossless_restatement, e.2)

/-- All ids recorded in `merged_ids` are archived in the store. -/
def MergedArchived (st : CompState) : Prop :=
  ∀ x ∈ st.merged, AllArchived x st.store

/-- The stable projection of the snapshot entry at position `n`. -/
def geti (st : CompState) (n : ℕ) : Option (String × String × ℚ) :=
  (st.low.map lowCore).get? n

/-- No document with the given id is present at all (delete mode). -/
def NoDoc (i : String) (s : Store) : Prop := ∀ e ∈ s, e.id ≠ i

/-! ## Theorems -/

theorem insertLe_perm (le : α → α → Bool) (a : α) (l : List α) :
    List.Perm (insertLe le a l) (a :: l) := by
  induction l with
  | nil => simp [insertLe]
  | cons b bs ih =>
    simp only [insertLe]
    by_cases h : le a b
    · simp [h]
    · simp only [h, if_false]
      exact (ih.cons b).trans (List.Perm.swap a b bs)

theorem sortBy_perm (le : α → α → Bool) (l : List α) : List.Perm (sortBy le l) l := by
  induction l with
  | nil => simp [sortBy]
  | cons a as ih =>
    exact (insertLe_perm le a (sortBy le as)).trans (ih.cons a)

theorem mem_sortBy {le : α → α → Bool} {l : List α} {a : α} :
    a ∈ sortBy le l ↔ a ∈ l :=
  (sortBy_perm le l).mem_iff

theorem length_sortBy (le : α → α → Bool) (l : List α) :
    (sortBy le l).length = l.length :=
  (sortBy_perm le l).length_eq

theorem mem_insertLe {le : α → α → Bool} {l : List α} {a x : α} :
    x ∈ insertLe le a l ↔ x = a ∨ x ∈ l := by
  rw [(insertLe_perm le a l).mem_iff]
  simp

theorem insertLe_pairwise {le : α → α → Bool}
    (htrans : ∀ a b c, le a b = true → le b c = true → le a c = true)
    (htot : ∀ a b, le a b = true ∨ le b a = true)
    {l : List α} (a : α) (hl : l.Pairwise (fun x y => le x y = true)) :
    (insertLe le a l).Pairwise (fun x y => le x y = true) := by
  induction l with
  | nil => simp [insertLe]
  | cons b bs ih =>
    rcases List.pairwise_cons.mp hl with ⟨hb, hbs⟩
    simp only [insertLe]
    by_cases h : le a b
    · simp only [h, if_true]
      refine List.pairwise_cons.mpr ⟨?_, hl⟩
      intro c hc
      rcases List.mem_cons.mp hc with rfl | hc
      · exact h
      · exact htrans a b c h (hb c hc)
    · simp only [h, if_false]
      refine List.pairwise_cons.mpr ⟨?_, ih hbs⟩
      intro c hc
      rcases mem_insertLe.mp hc with hca | hc
      · rcases htot a b with h2 | h2
        · exact absurd h2 (by simpa using h)
        · rw [hca]; exact h2
      · exact hb c hc

theorem sortBy_sorted {le : α → α → Bool}
    (htrans : ∀ a b c, le a b = true → le b c = true → le a c = true)
    (htot : ∀ a b, le a b = true ∨ le b a = true) (l : List α) :
    (sortBy le l).Pairwise (fun a b => le a b = true) := by
  induction l with
  | nil => simp [sortBy]
  | cons a as ih => exact insertLe_pairwise htrans htot a ih

/-! ## Data model

`EpDoc` is an episodic-memory document as stored in the
`episodic_memories` collection (`src/models/episodic.py`,
`src/storage/local/document_store.py`).  Only the fields read or written
by the embedded operations are kept. -/

theorem mem_pyRange {stop step x : ℕ} (hstep : 0 < step) :
    x ∈ pyRange stop step ↔ ∃ j, x = j * step ∧ x < stop := by
  unfold pyRange
  simp only [List.mem_map, List.mem_range]
  constructor
  · rintro ⟨j, hj, rfl⟩
    refine ⟨j, rfl, ?_⟩
    have h3 := (Nat.le_div_iff_mul_le hstep).mp hj
    have h4 : j * step + step ≤ stop + step - 1 := by
      calc j * step + step = (j + 1) * step := by ring
      _ ≤ _ := h3
    generalize j * step = m at h4 ⊢
    omega
  · rintro ⟨j, rfl, hlt⟩
    refine ⟨j, ?_, rfl⟩
    refine (Nat.le_div_iff_mul_le hstep).mpr ?_
    have h4 : j * step + step ≤ stop + step - 1 := by
      generalize j * step = m at hlt ⊢
      omega
    calc (j + 1) * step = j * step + step := by ring
    _ ≤ _ := h4

/-! ## Claim C4: sliding-window extraction -/

/-- C4: extraction splits the message list into windows that start at
the successive multiples of `step = max(1, W − O)`, each window being
the next `W` messages (shorter at the tail), and a window is processed
iff it has at least 2 messages; for `W = 4`, `O = 1` and messages
`m0..m6` the processed windows are exactly `[m0..m3]` and `[m3..m6]`
(the length-1 window at index 6 is skipped). -/
theorem claim_C4_windowing (W O : ℕ) (msgs : List α) :
    windowStep W O = max 1 (W - O) ∧
    (∀ win, win ∈ processedWindows W O msgs ↔
      ∃ j, j * windowStep W O < msgs.length ∧
        win = (msgs.drop (j * windowStep W O)).take W ∧ 2 ≤ win.length) ∧
    processedWindows 4 1 [0, 1, 2, 3, 4, 5, 6] =
      [[0, 1, 2, 3], [3, 4, 5, 6]] := by
  refine ⟨rfl, ?_, by decide⟩
  intro win
  have hstep : 0 < windowStep W O := le_max_left 1 (W - O)
  simp only [processedWindows, slidingWindows, List.mem_filter,
    List.mem_map, decide_eq_true_eq]
  constructor
  · rintro ⟨⟨st, hst, rfl⟩, hlen⟩
    rcases (mem_pyRange hstep).mp hst with ⟨j, rfl, hlt⟩
    exact ⟨j, hlt, rfl, hlen⟩
  · rintro ⟨j, hlt, rfl, hlen⟩
    exact ⟨⟨j * windowStep W O, (mem_pyRange hstep).mpr ⟨j, rfl, hlt⟩, rfl⟩, hlen⟩

/-- Witness for C4 at the scenario input. -/
theorem claim_C4_windowing_witness :
    [3, 4, 5, 6] ∈ processedWindows 4 1 [0, 1, 2, 3, 4, 5, 6] :=
  ((claim_C4_windowing 4 1 [0, 1, 2, 3, 4, 5, 6]).2.1 [3, 4, 5, 6]).mpr
    ⟨1, by decide, by decide, by decide⟩

/-! ## Claim C1: persistence fan-out under write failures -/

/-- C1 counterexample: the three writes of the persistence fan-out are
*not* independent.  When the document-store insert raises, the vector
upsert and the graph update are never attempted — `_persist_episodic`
and `_persist_semantic` guard all three writes with a single
`try/except` — contradicting the claim that the other two writes are
still attempted.  (The failure *is* only logged and the enclosing
extract call does not fail.) -/
theorem claim_C1_counterexample :
    persistFanout false true true =
      (([WStep.docInsert], []), true) ∧
    WStep.vecUpsert ∉ (persistFanout false true true).1.1 ∧
    WStep.graphUpdate ∉ (persistFanout false true true).1.1 := by
  decide

/-- C1 amended: for every accepted memory the persistence fan-out
attempts the document insert, vector upsert and graph update *in
sequence inside one `try` block*: the attempted writes are exactly the
prefix of `[docInsert, vecUpsert, graphUpdate]` up to and including the
first failing write; writes before the first failure are committed and
never rolled back; writes after the first failure are skipped; any
failure is logged (the flag) and the enclosing extract call never sees
an exception (the fan-out always returns). -/
theorem claim_C1_fanout_prefix (docOk vecOk graphOk : Bool) :
    persistFanout docOk vecOk graphOk =
      (if docOk = false then (([.docInsert], []), true)
       else if vecOk = false then (([.docInsert, .vecUpsert], [.docInsert]), true)
       else if graphOk = false then
         (([.docInsert, .vecUpsert, .graphUpdate], [.docInsert, .vecUpsert]), true)
       else (([.docInsert, .vecUpsert, .graphUpdate],
              [.docInsert, .vecUpsert, .graphUpdate]), false)) := by
  revert docOk vecOk graphOk
  decide

/-! ## Claim C9: a chat turn always returns a reply -/

/-- C9: for every chat request, if the reply-generation call raises,
`chat` still returns a response whose text is the fixed apology string
instead of propagating the exception; and retrieval or profile-lookup
failures never change the reply text either — for every combination of
outcomes `chat` returns a response whose text is the generated text on
success and the apology on generation failure. -/
theorem claim_C9_chat_always_replies (req : ChatReq) (o : ChatOutcomes) :
    (o.gen = .error () → (chat req o).response = apologyText) ∧
    (∀ t, o.gen = .ok t → (chat req o).response = t) := by
  constructor
  · intro hg
    simp [chat, hg]
  · intro t hg
    simp [chat, hg]

/-- Witness for C9: a concrete turn where retrieval, profile lookup,
prompt building, generation and extraction all raise still yields the
apology reply. -/
theorem claim_C9_chat_always_replies_witness :
    (chat { session_id := "s1", message := "hi", include_memory := true,
            include_profile := true, character_id := none }
          { retrieval := .error (), profile := .error (), prompt := .error (),
            gen := .error (), extractRun := .error () }).response = apologyText :=
  (claim_C9_chat_always_replies _ _).1 rfl

/-! ## Claim C2: Reciprocal Rank Fusion -/

theorem lookupQ_nil (k : String) : lookupQ [] k = 0 := rfl

theorem lookupQ_cons (kp : String) (x : ℚ) (rest : List (String × ℚ))
    (k2 : String) :
    lookupQ ((kp, x) :: rest) k2 = if kp = k2 then x else lookupQ rest k2 := by
  by_cases h : kp = k2
  · rw [lookupQ, dictGetQ, List.find?_cons_of_pos _ (by simp [h])]
    simp [h]
  · rw [lookupQ, dictGetQ, List.find?_cons_of_neg _ (by simp [h])]
    simp [h, lookupQ, dictGetQ]

theorem lookupQ_dictAddQ (d : List (String × ℚ)) (ky k2 : String) (v : ℚ) :
    lookupQ (dictAddQ d ky v) k2 = lookupQ d k2 + (if ky = k2 then v else 0) := by
  induction d with
  | nil =>
    show lookupQ [(ky, v)] k2 = lookupQ [] k2 + _
    rw [lookupQ_cons, lookupQ_nil]
    by_cases h : ky = k2 <;> simp [h]
  | cons p rest ih =>
    rcases p with ⟨kp, x⟩
    by_cases hk : kp = ky
    · subst hk
      rw [show dictAddQ ((kp, x) :: rest) kp v = (kp, x + v) :: rest from by
        simp [dictAddQ]]
      rw [lookupQ_cons, lookupQ_cons]
      by_cases h2 : kp = k2 <;> simp [h2]
    · rw [show dictAddQ ((kp, x) :: rest) ky v = (kp, x) :: dictAddQ rest ky v from by
        simp [dictAddQ, hk]]
      rw [lookupQ_cons, lookupQ_cons, ih]
      by_cases h2 : kp = k2
      · have hne : ¬(ky = k2) := fun hc => hk (h2.trans hc.symm)
        simp [h2, hne]
      · simp [h2]

theorem lookupQ_rrfAccum (k : ℚ) (mid : String) (l : List (String × ℚ))
    (rank : ℕ) (acc : List (String × ℚ)) :
    lookupQ (rrfAccum k rank l acc) mid =
      lookupQ acc mid + specContrib k mid rank l := by
  induction l generalizing rank acc with
  | nil => simp [rrfAccum, specContrib]
  | cons p rest ih =>
    rcases p with ⟨m, s⟩
    simp only [rrfAccum, specContrib]
    rw [ih, lookupQ_dictAddQ]
    ring

theorem specContrib_of_not_mem (k : ℚ) (mid : String) (rank : ℕ)
    {l : List (String × ℚ)} (h : mid ∉ l.map (·.1)) :
    specContrib k mid rank l = 0 := by
  induction l generalizing rank with
  | nil => simp [specContrib]
  | cons p rest ih =>
    rcases p with ⟨m, s⟩
    simp only [List.map_cons, List.mem_cons] at h
    push_neg at h
    simp only [specContrib]
    rw [if_neg (fun hx : m = mid => h.1 hx.symm), ih (rank + 1) h.2]
    simp

theorem specContrib_eq_rank (k : ℚ) (mid : String) (rank : ℕ)
    {l : List (String × ℚ)} (hnd : (l.map (·.1)).Nodup) :
    specContrib k mid rank l =
      if mid ∈ l.map (·.1) then
        1 / (k + ((rank + (l.map (·.1)).indexOf mid : ℕ) : ℚ))
      else 0 := by
  induction l generalizing rank with
  | nil => simp [specContrib]
  | cons p rest ih =>
    rcases p with ⟨m, s⟩
    simp only [List.map_cons] at hnd ⊢
    rcases List.nodup_cons.mp hnd with ⟨hm, hrest⟩
    by_cases h : m = mid
    · subst h
      simp [specContrib, specContrib_of_not_mem k m (rank + 1) hm,
        List.indexOf_cons_self]
    · have hne : mid ≠ m := fun hx => h hx.symm
      simp only [specContrib, if_neg h, zero_add, ih (rank + 1) hrest]
      by_cases hmem : mid ∈ rest.map (·.1)
      · rw [if_pos (List.mem_cons_of_mem m hmem),
          if_pos hmem, List.indexOf_cons_ne _ h]
        have hAB : rank + 1 + List.indexOf mid (rest.map (·.1)) =
            rank + Nat.succ (List.indexOf mid (rest.map (·.1))) := by omega
        rw [hAB]
      · rw [if_neg hmem, if_neg (by
          intro hc
          rcases List.mem_cons.mp hc with hc | hc
          · exact hne hc
          · exact hmem hc)]

theorem lookupQ_foldAccum (k : ℚ) (mid : String)
    (rankings : List (String × List (String × ℚ)))
    (acc0 : List (String × ℚ)) :
    lookupQ (rankings.foldl (fun acc p => rrfAccum k 1 p.2 acc) acc0) mid =
      lookupQ acc0 mid +
        (rankings.map (fun p => specContrib k mid 1 p.2)).sum := by
  induction rankings generalizing acc0 with
  | nil => simp
  | cons p rest ih =>
    simp only [List.foldl_cons, List.map_cons, List.sum_cons]
    rw [ih, lookupQ_rrfAccum]
    ring

theorem lookupQ_rrfFusion (k : ℚ) (cands : Candidates) (mid : String) :
    lookupQ (rrfFusion k cands) mid =
      ((sourceRankings cands).map
        (fun p => specContrib k mid 1 (sortBy byScoreDesc p.2))).sum := by
  unfold rrfFusion
  rw [lookupQ_foldAccum, List.map_map, lookupQ_nil, zero_add]
  rfl

/-- C2: in episodic fusion, every strategy's candidate list is ranked
by its own score descending; the fused score of a memory id equals the
sum over the strategies of `1/(k + rank_in_that_strategy)` with rank
starting at 1 (ids proposed by no strategy have no entry, i.e. score
0); and, with `k = 60`, a memory A ranked 1st by both the vector
(`"semantic"`) and the lexical strategies gets `2/61`, strictly more
than the `1/61` of a memory B ranked 1st by the vector strategy only.
The hypothesis `hnd` states that each strategy proposes any memory id
at most once, which is what makes "its rank in that strategy" well
defined. -/
theorem claim_C2_rrf_fusion (k : ℚ) (cands : Candidates)
    (hnd : ∀ src r, (src, r) ∈ sourceRankings cands → (r.map (·.1)).Nodup) :
    (∀ src r, (src, r) ∈ sourceRankings cands →
      (sortBy byScoreDesc r).Pairwise (fun a b => b.2 ≤ a.2)) ∧
    (∀ mid, lookupQ (rrfFusion k cands) mid =
      ((sourceRankings cands).map (fun p =>
        if mid ∈ (sortBy byScoreDesc p.2).map (·.1) then
          1 / (k + (rankIn (sortBy byScoreDesc p.2) mid : ℚ))
        else 0)).sum) ∧
    (dictGetQ (rrfFusion 60 [("A", [(9/10, "semantic"), (4/5, "lexical")])]) "A"
        = some (2/61) ∧
      dictGetQ (rrfFusion 60 [("B", [(9/10, "semantic")])]) "B" = some (1/61) ∧
      (1/61 : ℚ) < 2/61) := by
  refine ⟨?_, ?_, by decide, by decide, by decide⟩
  · intro src r _
    have htrans : ∀ a b c : String × ℚ, byScoreDesc a b = true →
        byScoreDesc b c = true → byScoreDesc a c = true := by
      intro a b c hab hbc
      simp only [byScoreDesc, decide_eq_true_eq] at *
      exact le_trans hbc hab
    have htot : ∀ a b : String × ℚ,
        byScoreDesc a b = true ∨ byScoreDesc b a = true := by
      intro a b
      simp only [byScoreDesc, decide_eq_true_eq]
      exact le_total b.2 a.2
    exact (sortBy_sorted htrans htot r).imp (fun h => of_decide_eq_true h)
  · intro mid
    rw [lookupQ_rrfFusion]
    refine congrArg List.sum (List.map_congr_left ?_)
    intro p hp
    have hnds : ((sortBy byScoreDesc p.2).map (·.1)).Nodup :=
      (hnd p.1 p.2 hp).perm ((sortBy_perm byScoreDesc p.2).map (·.1)).symm
    rw [specContrib_eq_rank k mid 1 hnds]
    by_cases hmem : mid ∈ (sortBy byScoreDesc p.2).map (·.1)
    · rw [if_pos hmem, if_pos hmem, rankIn]
      have : 1 + List.indexOf mid ((sortBy byScoreDesc p.2).map (·.1)) =
          List.indexOf mid ((sortBy byScoreDesc p.2).map (·.1)) + 1 := by omega
      rw [this]
    · rw [if_neg hmem, if_neg hmem]

/-- Witness for C2 at the scenario candidate map of memory A. -/
theorem claim_C2_rrf_fusion_witness :
    dictGetQ (rrfFusion 60 [("A", [(9/10, "semantic"), (4/5, "lexical")])]) "A"
      = some (2/61) := by
  refine (claim_C2_rrf_fusion 60
    [("A", [(9/10, "semantic"), (4/5, "lexical")])] ?_).2.2.1
  intro src r h
  have hsr : sourceRankings [("A", [((9:ℚ)/10, "semantic"), ((4:ℚ)/5, "lexical")])] =
      [("semantic", [("A", (9:ℚ)/10)]), ("lexical", [("A", (4:ℚ)/5)])] := by decide
  rw [hsr] at h
  simp only [List.mem_cons, List.not_mem_nil, or_false, Prod.mk.injEq] at h
  rcases h with ⟨h1, h2⟩ | ⟨h1, h2⟩ <;> subst h2 <;> decide

/-! ## Concrete fixtures used by scenario conjuncts, witnesses and
counterexamples -/

/-- C8 counterexample: with FTS results `[doc of user u2, doc of user
u1]` and requester `u1`, the single retained result — rank 0 among the
requesting user's results — is scored `max(0.3, 1.0 − 1×0.1) = 0.9`,
not the `max(0.3, 1.0 − 0×0.1) = 1.0` the claim predicts: the rank in
the score formula is the row's position among *all* FTS results, not
among the requesting user's. -/
theorem claim_C8_counterexample :
    lexicalCandidates "u1" [mkDoc "b" "u2" 0 0 0, mkDoc "a" "u1" 0 0 0] =
      [("a", 9/10)] ∧
    (9/10 : ℚ) ≠ max (3/10) (1 - (0 : ℚ) * (1/10)) := by
  constructor
  · decide
  · decide

/-- C8 amended: the full-text search text is the keywords joined by a
space, or the raw query when no keywords were extracted; the retained
candidates are exactly the FTS rows of the requesting user; and the
score of a retained row is `max(0.3, 1.0 − i×0.1)` where `i` is the
row's position in the *full* FTS result list (other users' rows
included), not its rank among the requesting user's results. -/
theorem claim_C8_lexical_strategy (userId query : String)
    (keywords : List String) (fts : List EpDoc) :
    (keywords = [] → lexicalSearchText keywords query = query) ∧
    (keywords ≠ [] →
      lexicalSearchText keywords query = String.intercalate " " keywords) ∧
    (∀ c, c ∈ lexicalCandidates userId fts ↔
      ∃ (i : ℕ) (d : EpDoc), fts[i]? = some d ∧ d.user_id = userId ∧
        c = (d.id, max (3/10) (1 - (i : ℚ) * (1/10)))) := by
  refine ⟨?_, ?_, ?_⟩
  · intro h
    simp [lexicalSearchText, h]
  · intro h
    simp [lexicalSearchText, h]
  · intro c
    simp only [lexicalCandidates, List.mem_filterMap]
    constructor
    · rintro ⟨⟨i, d⟩, hmem, hf⟩
      rw [List.mk_mem_enum_iff_getElem?] at hmem
      by_cases hu : d.user_id = userId
      · rw [if_pos hu] at hf
        exact ⟨i, d, hmem, hu, (Option.some.inj hf).symm⟩
      · rw [if_neg hu] at hf
        exact absurd hf (by simp)
    · rintro ⟨i, d, hget, hu, rfl⟩
      exact ⟨(i, d), List.mk_mem_enum_iff_getElem?.mpr hget, by rw [if_pos hu]⟩

/-- Witness for C8: at the counterexample's input, the retained row
`a` of user `u1` sits at position 1 of the full FTS list and scores
`9/10`. -/
theorem claim_C8_lexical_strategy_witness :
    ("a", (9 : ℚ)/10) ∈
      lexicalCandidates "u1" [mkDoc "b" "u2" 0 0 0, mkDoc "a" "u1" 0 0 0] := by
  exact ((claim_C8_lexical_strategy "u1" "q" [] _).2.2 _).mpr
    ⟨1, mkDoc "a" "u1" 0 0 0, by decide, rfl, by decide⟩

/-! ## Claim C3: effective importance -/

/-- C3 counterexample: a memory record with `base_importance = 0` and
`access_count = 0` has effective importance 0 at every age, so with
`decay_factor = 1/2 < 1` the effective importance is *not* strictly
decreasing in `days_old` (day 0 and day 1 give the same value). -/
theorem claim_C3_counterexample :
    daysOld 0 0 = 0 ∧ daysOld 86400 0 = 1 ∧
    (mkDoc "m" "u" 0 0 0).access_count = 0 ∧
    ((1 : ℚ)/2) < 1 ∧
    calcEffectiveImportance
        { importance_threshold := 3/10, time_decay_factor := 1/2,
          access_boost_factor := 1/10, similarity_threshold := 17/20,
          max_memories_per_user := 100 } 86400 (mkDoc "m" "u" 0 0 0) =
      calcEffectiveImportance
        { importance_threshold := 3/10, time_decay_factor := 1/2,
          access_boost_factor := 1/10, similarity_threshold := 17/20,
          max_memories_per_user := 100 } 0 (mkDoc "m" "u" 0 0 0) := by
  refine ⟨by decide, by decide, by decide, by decide, by decide⟩

/-- C3 amended: the Forgetter computes
`effective = clamp(base × decay^days_old + min(boost × access, 0.3), 0, 1)`
with `days_old` the whole-day floor of `now − created_at` (the code
writes `min(..., 1.0)`, which equals the clamp because every term is
nonnegative for a valid record); for `days_old = 0` and
`access_count = 0` it equals `base_importance`; and for
`access_count = 0` it is strictly decreasing in `days_old` provided
`0 < base_importance`, `0 < decay_factor < 1` and `days_old ≥ 0` —
the strict decrease fails for `base_importance = 0`, which the
counterexample exhibits. -/
theorem claim_C3_effective_importance (cfg : ForgettingCfg) (m : EpDoc)
    (now now2 : ℤ) (himp0 : 0 ≤ m.importance) (himp1 : m.importance ≤ 1)
    (hdec0 : 0 ≤ cfg.time_decay_factor)
    (hboost : 0 ≤ cfg.access_boost_factor) :
    (calcEffectiveImportance cfg now m =
      max 0 (min (m.importance * cfg.time_decay_factor ^ daysOld now m.created_at +
        min (cfg.access_boost_factor * (m.access_count : ℚ)) (3/10)) 1)) ∧
    (m.access_count = 0 → daysOld now m.created_at = 0 →
      calcEffectiveImportance cfg now m = m.importance) ∧
    (m.access_count = 0 → 0 < m.importance → 0 < cfg.time_decay_factor →
      cfg.time_decay_factor < 1 → 0 ≤ daysOld now m.created_at →
      daysOld now m.created_at < daysOld now2 m.created_at →
      calcEffectiveImportance cfg now2 m < calcEffectiveImportance cfg now m) := by
  have hterm : 0 ≤ m.importance * cfg.time_decay_factor ^ daysOld now m.created_at +
      min (cfg.access_boost_factor * (m.access_count : ℚ)) (3/10) := by
    have h1 : 0 ≤ m.importance * cfg.time_decay_factor ^ daysOld now m.created_at :=
      mul_nonneg himp0 (zpow_nonneg hdec0 _)
    have h2 : (0 : ℚ) ≤ min (cfg.access_boost_factor * (m.access_count : ℚ)) (3/10) :=
      le_min (mul_nonneg hboost (Nat.cast_nonneg _)) (by norm_num)
    linarith
  refine ⟨?_, ?_, ?_⟩
  · rw [calcEffectiveImportance]
    rw [max_eq_right (le_min hterm (by norm_num))]
  · intro hacc hday
    rw [calcEffectiveImportance, hday]
    simp only [hacc, Nat.cast_zero, mul_zero, zpow_zero, mul_one]
    rw [@min_eq_left ℚ _ 0 (3/10) (by norm_num), add_zero, min_eq_left himp1]
  · intro hacc himp hd0 hd1 hdge hdlt
    have hboost0 : min (cfg.access_boost_factor * (m.access_count : ℚ)) (3/10) = 0 := by
      rw [hacc]
      simp only [Nat.cast_zero, mul_zero]
      exact min_eq_left (by norm_num)
    rw [calcEffectiveImportance, calcEffectiveImportance, hboost0, add_zero, add_zero]
    have hle1 : cfg.time_decay_factor ^ daysOld now m.created_at ≤ 1 :=
      zpow_le_one₀ hd0 (le_of_lt hd1) hdge
    have hle1b : cfg.time_decay_factor ^ daysOld now2 m.created_at ≤ 1 :=
      zpow_le_one₀ hd0 (le_of_lt hd1) (le_trans hdge (le_of_lt hdlt))
    have hb1 : m.importance * cfg.time_decay_factor ^ daysOld now m.created_at ≤ 1 := by
      calc m.importance * cfg.time_decay_factor ^ daysOld now m.created_at
          ≤ m.importance * 1 := by
            exact mul_le_mul_of_nonneg_left hle1 himp0
      _ = m.importance := mul_one _
      _ ≤ 1 := himp1
    have hb2 : m.importance * cfg.time_decay_factor ^ daysOld now2 m.created_at ≤ 1 := by
      calc m.importance * cfg.time_decay_factor ^ daysOld now2 m.created_at
          ≤ m.importance * 1 := mul_le_mul_of_nonneg_left hle1b himp0
      _ = m.importance := mul_one _
      _ ≤ 1 := himp1
    rw [min_eq_left hb1, min_eq_left hb2]
    exact mul_lt_mul_of_pos_left
      (zpow_lt_zpow_right_of_lt_one₀ hd0 hd1 hdlt) himp

/-- Witness for C3: a memory of importance 0.8 created at time 0,
evaluated at day 0 and day 2 with decay factor 1/2. -/
theorem claim_C3_effective_importance_witness :
    calcEffectiveImportance
        { importance_threshold := 3/10, time_decay_factor := 1/2,
          access_boost_factor := 1/10, similarity_threshold := 17/20,
          max_memories_per_user := 100 } (2 * 86400)
        (mkDoc "m" "u" (4/5) 0 0) <
      calcEffectiveImportance
        { importance_threshold := 3/10, time_decay_factor := 1/2,
          access_boost_factor := 1/10, similarity_threshold := 17/20,
          max_memories_per_user := 100 } 0 (mkDoc "m" "u" (4/5) 0 0) :=
  (claim_C3_effective_importance _ _ 0 (2 * 86400) (by decide) (by decide)
    (by decide) (by decide)).2.2 rfl (by decide) (by decide) (by decide)
    (by decide) (by decide)

/-! ## Claims C10 and C5: access-count frame and archived exclusion -/

theorem id_mem_of_mem {s : Store} {d : EpDoc} (hd : d ∈ s) :
    d.id ∈ s.map (·.id) :=
  List.mem_map_of_mem _ hd

theorem findById_of_nodup {s : Store} {d : EpDoc} (hn : nodupIds s)
    (hd : d ∈ s) : findById s d.id = some d := by
  induction s with
  | nil => cases hd
  | cons a rest ih =>
    rcases List.mem_cons.mp hd with rfl | hd2
    · simp [findById, List.find?]
    · have hna : a.id ∉ rest.map (·.id) := by
        have := List.nodup_cons.mp hn
        simpa using this.1
      have hne2 : (a.id == d.id) = false := by
        simp only [beq_eq_false_iff_ne, ne_eq]
        intro hc
        exact hna (hc ▸ id_mem_of_mem hd2)
      simp only [findById, List.find?_cons, hne2]
      exact ih (List.nodup_cons.mp hn).2 hd2

theorem mem_of_findById {s : Store} {i : String} {d : EpDoc}
    (h : findById s i = some d) : d ∈ s ∧ d.id = i := by
  refine ⟨List.mem_of_find?_eq_some h, ?_⟩
  have := List.find?_some h
  simpa using this

theorem eq_of_mem_of_id_eq {s : Store} {d1 d2 : EpDoc} (hn : nodupIds s)
    (h1 : d1 ∈ s) (h2 : d2 ∈ s) (hid : d1.id = d2.id) : d1 = d2 :=
  List.inj_on_of_nodup_map hn h1 h2 hid

/-- C10 counterexample: the document-store update performed for a
returned memory also changes the stored `updated_at` column (the local
document store stamps it on every update), not only `access_count` and
`last_accessed_at`. -/
theorem claim_C10_counterexample :
    ((updateAccessCount 99 [mkDoc "m" "u" (1/2) 0 5] "m").map (·.updated_at))
        = [99] ∧
    (mkDoc "m" "u" (1/2) 0 5).updated_at = 0 ∧ (99 : ℤ) ≠ 0 := by
  refine ⟨by decide, by decide, by decide⟩

/-- C10 amended: the access-count update of retrieval is frame-limited
to three fields: for a store with unique ids, updating memory `mid`
rewrites exactly the document with id `mid`, incrementing
`access_count` by 1, stamping `last_accessed_at` with the current time
and stamping the store-maintained `updated_at`; every other field and
every other document is unchanged. -/
theorem claim_C10_access_update_frame (now : ℤ) (s : Store) (mid : String)
    (hn : nodupIds s) :
    updateAccessCount now s mid = s.map (fun d => if d.id = mid then
      { d with access_count := d.access_count + 1,
               last_accessed_at := some now, updated_at := now } else d) := by
  unfold updateAccessCount
  cases hfind : findById s mid with
  | none =>
    have hno : ∀ d ∈ s, ¬(d.id == mid) = true := List.find?_eq_none.mp hfind
    have hmapeq : s.map (fun d => if d.id = mid then
        { d with access_count := d.access_count + 1,
                 last_accessed_at := some now, updated_at := now } else d) = s := by
      have h2 : ∀ d ∈ s, (if d.id = mid then
          { d with access_count := d.access_count + 1,
                   last_accessed_at := some now, updated_at := now } else d) = id d := by
        intro d hd
        rw [if_neg (by simpa using hno d hd)]
        rfl
      rw [List.map_congr_left h2, List.map_id]
    exact hmapeq.symm
  | some doc =>
    refine List.map_congr_left ?_
    intro d hd
    by_cases h : d.id = mid
    · rw [if_pos h, if_pos h]
      rcases mem_of_findById hfind with ⟨hdoc, hdocid⟩
      have : doc = d := eq_of_mem_of_id_eq hn hdoc hd (hdocid.trans h.symm)
      rw [this]
    · rw [if_neg h, if_neg h]

/-- Witness for C10: one concrete document updated at time 99. -/
theorem claim_C10_access_update_frame_witness :
    updateAccessCount 99 [mkDoc "m" "u" (1/2) 0 5] "m" =
      [{ (mkDoc "m" "u" (1/2) 0 5) with
          access_count := 1, last_accessed_at := some 99, updated_at := 99 }] := by
  rw [claim_C10_access_update_frame 99 _ "m" (by decide)]
  decide

theorem updateAccessCount_id_arch (now : ℤ) (s : Store) (mid : String) :
    (updateAccessCount now s mid).map (fun x => (x.id, x.is_archived)) =
      s.map (fun x => (x.id, x.is_archived)) := by
  unfold updateAccessCount
  cases hfind : findById s mid with
  | none => rfl
  | some doc =>
    rw [List.map_map]
    refine List.map_congr_left ?_
    intro d _
    by_cases h : d.id = mid <;> simp [Function.comp, h]

theorem applyAccessUpdates_id_arch (now : ℤ) (results : List ScoredMemory)
    (s : Store) :
    (applyAccessUpdates now results s).map (fun x => (x.id, x.is_archived)) =
      s.map (fun x => (x.id, x.is_archived)) := by
  induction results generalizing s with
  | nil => rfl
  | cons r rest ih =>
    show (applyAccessUpdates now rest (updateAccessCount now s r.memory_id)).map _ = _
    rw [ih, updateAccessCount_id_arch]

/-- C5: once an episodic document is marked archived, the final
hydration step of `_retrieve_episodic` never emits it — for every fused
ranking, candidate map and `top_k` — while `find_by_id` still returns
the document itself; moreover the only store mutation of `retrieve`
(the access-count updates) changes no document's id or archived flag,
so the memory stays archived and excluded across subsequent
retrievals. -/
theorem claim_C5_archived_excluded (s : Store) (d : EpDoc)
    (hn : nodupIds s) (hd : d ∈ s) (ha : d.is_archived = true) :
    (∀ cands rrf topK,
      d.id ∉ (hydrateResults s cands rrf topK).map (·.memory_id)) ∧
    findById s d.id = some d ∧
    (∀ now results,
      (applyAccessUpdates now results s).map (fun x => (x.id, x.is_archived)) =
        s.map (fun x => (x.id, x.is_archived))) := by
  refine ⟨?_, findById_of_nodup hn hd, fun now results =>
    applyAccessUpdates_id_arch now results s⟩
  intro cands rrf topK hmem
  simp only [List.mem_map] at hmem
  obtain ⟨c, hc, hcid⟩ := hmem
  simp only [hydrateResults, List.mem_filterMap] at hc
  obtain ⟨p, _, hf⟩ := hc
  cases hfind : findById s p.1 with
  | none => simp [hfind] at hf
  | some doc =>
    simp only [hfind] at hf
    by_cases harch : doc.is_archived = true
    · simp [harch] at hf
    · simp only [Bool.not_eq_true] at harch
      simp only [harch, Bool.not_false, if_pos] at hf
      have hcs := Option.some.inj hf
      have hcidp : c.memory_id = p.1 := by
        rw [← hcs]
      have hpd : p.1 = d.id := hcidp ▸ hcid
      rw [hpd, findById_of_nodup hn hd] at hfind
      cases hfind
      rw [ha] at harch
      cases harch

/-- Witness for C5: a concrete archived document is excluded from a
retrieval that ranks it first, and is still `find_by_id`-reachable. -/
theorem claim_C5_archived_excluded_witness :
    "arch1" ∉ (hydrateResults
        [{ (mkDoc "arch1" "u" (1/2) 0 1) with is_archived := true },
         mkDoc "live1" "u" (1/2) 0 2]
        [("arch1", [(9/10, "semantic")])] [("arch1", 1/61)] 5).map
        (·.memory_id) ∧
    findById
        [{ (mkDoc "arch1" "u" (1/2) 0 1) with is_archived := true },
         mkDoc "live1" "u" (1/2) 0 2] "arch1" =
      some { (mkDoc "arch1" "u" (1/2) 0 1) with is_archived := true } := by
  have h := claim_C5_archived_excluded
    [{ (mkDoc "arch1" "u" (1/2) 0 1) with is_archived := true },
     mkDoc "live1" "u" (1/2) 0 2]
    { (mkDoc "arch1" "u" (1/2) 0 1) with is_archived := true }
    (by decide) (by decide) (by decide)
  exact ⟨h.1 [("arch1", [(9/10, "semantic")])] [("arch1", 1/61)] 5, h.2.1⟩

/-! ## Claims C6 and C7: the forgetting cycle

The forgetting cycle only ever rewrites the flags
`is_archived` / `is_compressed` / `merged_from` / `updated_at` of a
document (or deletes it); the *core* fields that identify it and that
its effective importance is computed from never change.  `EvolvedFrom`
captures this, `AllArchived` captures the stickiness of archiving. -/

theorem core_fields {d e : EpDoc} (h : core e = core d) :
    e.id = d.id ∧ e.user_id = d.user_id ∧
    e.lossless_restatement = d.lossless_restatement ∧
    e.importance = d.importance ∧ e.access_count = d.access_count ∧
    e.created_at = d.created_at := by
  simpa [core, Prod.ext_iff] using h

theorem eff_core_congr (cfg : ForgettingCfg) (now : ℤ) {d e : EpDoc}
    (h : core e = core d) :
    calcEffectiveImportance cfg now e = calcEffectiveImportance cfg now d := by
  obtain ⟨_, _, _, h4, h5, h6⟩ := core_fields h
  simp [calcEffectiveImportance, h4, h5, h6]

theorem evolvedFrom_refl (s : Store) : EvolvedFrom s s :=
  fun e he => ⟨e, he, rfl, id⟩

theorem evolvedFrom_trans {s t u : Store} (h1 : EvolvedFrom s t)
    (h2 : EvolvedFrom t u) : EvolvedFrom s u := by
  intro e he
  obtain ⟨d, hd, hc, hm⟩ := h2 e he
  obtain ⟨c, hcs, hc2, hm2⟩ := h1 d hd
  exact ⟨c, hcs, hc.trans hc2, fun ha => hm (hm2 ha)⟩

theorem archiveId_evolves (now : ℤ) (i : String) (s : Store) :
    EvolvedFrom s (archiveId now i s) := by
  intro e he
  rcases List.mem_map.mp he with ⟨d, hd, rfl⟩
  refine ⟨d, hd, ?_, ?_⟩ <;> by_cases h : d.id = i <;> simp [h, core]

theorem compressMark_evolves (now : ℤ) (i : String) (mf : List String)
    (s : Store) : EvolvedFrom s (compressMark now i mf s) := by
  intro e he
  rcases List.mem_map.mp he with ⟨d, hd, rfl⟩
  refine ⟨d, hd, ?_, ?_⟩ <;> by_cases h : d.id = i <;> simp [h, core]

theorem deleteId_evolves (i : String) (s : Store) :
    EvolvedFrom s (deleteId i s) := by
  intro e he
  exact ⟨e, (List.mem_filter.mp he).1, rfl, id⟩

theorem allArchived_archiveId_self (now : ℤ) (i : String) (s : Store) :
    AllArchived i (archiveId now i s) := by
  intro e he hid
  rcases List.mem_map.mp he with ⟨d, _, rfl⟩
  by_cases h : d.id = i
  · simp [h]
  · rw [if_neg h] at hid ⊢
    exact absurd hid h

theorem allArchived_deleteId_self (i : String) (s : Store) :
    AllArchived i (deleteId i s) := by
  intro e he hid
  have := (List.mem_filter.mp he).2
  rw [hid] at this
  simp at this

theorem allArchived_archiveId (now : ℤ) (i j : String) {s : Store}
    (h : AllArchived i s) : AllArchived i (archiveId now j s) := by
  intro e he hid
  rcases List.mem_map.mp he with ⟨d, hd, rfl⟩
  by_cases hj : d.id = j
  · simp [hj]
  · rw [if_neg hj] at hid ⊢
    exact h d hd hid

theorem allArchived_compressMark (now : ℤ) (i j : String) (mf : List String)
    {s : Store} (h : AllArchived i s) :
    AllArchived i (compressMark now j mf s) := by
  intro e he hid
  rcases List.mem_map.mp he with ⟨d, hd, rfl⟩
  by_cases hj : d.id = j
  · rw [if_pos hj] at hid ⊢
    exact h d hd hid
  · rw [if_neg hj] at hid ⊢
    exact h d hd hid

theorem allArchived_deleteId (i j : String) {s : Store}
    (h : AllArchived i s) : AllArchived i (deleteId j s) :=
  fun e he hid => h e (List.mem_filter.mp he).1 hid

theorem archiveId_ids (now : ℤ) (i : String) (s : Store) :
    (archiveId now i s).map (·.id) = s.map (·.id) := by
  unfold archiveId
  rw [List.map_map]
  refine List.map_congr_left ?_
  intro d _
  by_cases h : d.id = i <;> simp [Function.comp, h]

theorem compressMark_ids (now : ℤ) (i : String) (mf : List String) (s : Store) :
    (compressMark now i mf s).map (·.id) = s.map (·.id) := by
  unfold compressMark
  rw [List.map_map]
  refine List.map_congr_left ?_
  intro d _
  by_cases h : d.id = i <;> simp [Function.comp, h]

theorem nodupIds_archiveId (now : ℤ) (i : String) {s : Store}
    (h : nodupIds s) : nodupIds (archiveId now i s) := by
  unfold nodupIds
  rw [archiveId_ids]
  exact h

theorem nodupIds_compressMark (now : ℤ) (i : String) (mf : List String)
    {s : Store} (h : nodupIds s) : nodupIds (compressMark now i mf s) := by
  unfold nodupIds
  rw [compressMark_ids]
  exact h

theorem nodupIds_deleteId (i : String) {s : Store} (h : nodupIds s) :
    nodupIds (deleteId i s) :=
  List.Nodup.sublist ((List.filter_sublist s).map (·.id)) h

theorem compMerge_low_core (now : ℤ) (ei ej : EpDoc × ℚ) (st : CompState) :
    (compMerge now ei ej st).low.map lowCore = st.low.map lowCore := by
  unfold compMerge
  rw [List.map_map]
  refine List.map_congr_left ?_
  intro e _
  by_cases h : e.1.id = (if ei.2 ≥ ej.2 then ei else ej).1.id <;>
    simp [Function.comp, h, lowCore]

theorem compMerge_store_evolves (now : ℤ) (ei ej : EpDoc × ℚ)
    (st : CompState) : EvolvedFrom st.store (compMerge now ei ej st).store :=
  evolvedFrom_trans (compressMark_evolves now _ _ st.store)
    (archiveId_evolves now _ _)

theorem compMerge_merged (now : ℤ) (ei ej : EpDoc × ℚ) (st : CompState) :
    (compMerge now ei ej st).merged =
      (if ei.2 ≥ ej.2 then ej else ei).1.id :: st.merged := rfl

theorem compMerge_mergedArchived (now : ℤ) (ei ej : EpDoc × ℚ)
    {st : CompState} (h : MergedArchived st) :
    MergedArchived (compMerge now ei ej st) := by
  intro x hx
  rw [compMerge_merged] at hx
  rcases List.mem_cons.mp hx with rfl | hx
  · exact allArchived_archiveId_self now _ _
  · exact allArchived_archiveId now _ _ (allArchived_compressMark now _ _ _ (h x hx))

theorem compMerge_nodup (now : ℤ) (ei ej : EpDoc × ℚ) {st : CompState}
    (h : nodupIds st.store) : nodupIds (compMerge now ei ej st).store :=
  nodupIds_archiveId now _ (nodupIds_compressMark now _ _ h)

theorem compInner_low_core (cfg : ForgettingCfg) (sim : String → String → ℚ)
    (now : ℤ) (i : ℕ) (js : List ℕ) (st : CompState) :
    (compInner cfg sim now i js st).low.map lowCore = st.low.map lowCore := by
  induction js generalizing st with
  | nil => rfl
  | cons j rest ih =>
    rcases hgi : st.low.get? i with _ | ei <;>
      rcases hgj : st.low.get? j with _ | ej <;>
      simp only [compInner, hgi, hgj]
    · exact ih st
    · exact ih st
    · exact ih st
    · by_cases hm : st.merged.contains ej.1.id = true
      · rw [if_pos hm]
        exact ih st
      · rw [if_neg hm]
        by_cases hs : sim ei.1.lossless_restatement ej.1.lossless_restatement >
            cfg.similarity_threshold
        · rw [if_pos hs, ih (compMerge now ei ej st), compMerge_low_core]
        · rw [if_neg hs]
          exact ih st

theorem compInner_merged_mono (cfg : ForgettingCfg) (sim : String → String → ℚ)
    (now : ℤ) (i : ℕ) (js : List ℕ) (st : CompState) {x : String}
    (hx : x ∈ st.merged) : x ∈ (compInner cfg sim now i js st).merged := by
  induction js generalizing st with
  | nil => exact hx
  | cons j rest ih =>
    rcases hgi : st.low.get? i with _ | ei <;>
      rcases hgj : st.low.get? j with _ | ej <;>
      simp only [compInner, hgi, hgj]
    · exact ih st hx
    · exact ih st hx
    · exact ih st hx
    · by_cases hm : st.merged.contains ej.1.id = true
      · rw [if_pos hm]
        exact ih st hx
      · rw [if_neg hm]
        by_cases hs : sim ei.1.lossless_restatement ej.1.lossless_restatement >
            cfg.similarity_threshold
        · rw [if_pos hs]
          refine ih (compMerge now ei ej st) ?_
          rw [compMerge_merged]
          exact List.mem_cons_of_mem _ hx
        · rw [if_neg hs]
          exact ih st hx

theorem compInner_mergedArchived (cfg : ForgettingCfg)
    (sim : String → String → ℚ) (now : ℤ) (i : ℕ) (js : List ℕ)
    {st : CompState} (h : MergedArchived st) :
    MergedArchived (compInner cfg sim now i js st) := by
  induction js generalizing st with
  | nil => exact h
  | cons j rest ih =>
    rcases hgi : st.low.get? i with _ | ei <;>
      rcases hgj : st.low.get? j with _ | ej <;>
      simp only [compInner, hgi, hgj]
    · exact ih h
    · exact ih h
    · exact ih h
    · by_cases hm : st.merged.contains ej.1.id = true
      · rw [if_pos hm]
        exact ih h
      · rw [if_neg hm]
        by_cases hs : sim ei.1.lossless_restatement ej.1.lossless_restatement >
            cfg.similarity_threshold
        · rw [if_pos hs]
          exact ih (compMerge_mergedArchived now ei ej h)
        · rw [if_neg hs]
          exact ih h

theorem compInner_store_evolves (cfg : ForgettingCfg)
    (sim : String → String → ℚ) (now : ℤ) (i : ℕ) (js : List ℕ)
    (st : CompState) :
    EvolvedFrom st.store (compInner cfg sim now i js st).store := by
  induction js generalizing st with
  | nil => exact evolvedFrom_refl _
  | cons j rest ih =>
    rcases hgi : st.low.get? i with _ | ei <;>
      rcases hgj : st.low.get? j with _ | ej <;>
      simp only [compInner, hgi, hgj]
    · exact ih st
    · exact ih st
    · exact ih st
    · by_cases hm : st.merged.contains ej.1.id = true
      · rw [if_pos hm]
        exact ih st
      · rw [if_neg hm]
        by_cases hs : sim ei.1.lossless_restatement ej.1.lossless_restatement >
            cfg.similarity_threshold
        · rw [if_pos hs]
          exact evolvedFrom_trans (compMerge_store_evolves now ei ej st)
            (ih (compMerge now ei ej st))
        · rw [if_neg hs]
          exact ih st

theorem compInner_nodup (cfg : ForgettingCfg) (sim : String → String → ℚ)
    (now : ℤ) (i : ℕ) (js : List ℕ) {st : CompState}
    (h : nodupIds st.store) :
    nodupIds (compInner cfg sim now i js st).store := by
  induction js generalizing st with
  | nil => exact h
  | cons j rest ih =>
    rcases hgi : st.low.get? i with _ | ei <;>
      rcases hgj : st.low.get? j with _ | ej <;>
      simp only [compInner, hgi, hgj]
    · exact ih h
    · exact ih h
    · exact ih h
    · by_cases hm : st.merged.contains ej.1.id = true
      · rw [if_pos hm]
        exact ih h
      · rw [if_neg hm]
        by_cases hs : sim ei.1.lossless_restatement ej.1.lossless_restatement >
            cfg.similarity_threshold
        · rw [if_pos hs]
          exact ih (compMerge_nodup now ei ej h)
        · rw [if_neg hs]
          exact ih h

theorem geti_eq (st : CompState) (n : ℕ) :
    geti st n = (st.low.get? n).map lowCore :=
  List.get?_map lowCore st.low n

theorem geti_compMerge (now : ℤ) (ei ej : EpDoc × ℚ) (st : CompState)
    (n : ℕ) : geti (compMerge now ei ej st) n = geti st n := by
  unfold geti
  rw [compMerge_low_core]

theorem geti_compInner (cfg : ForgettingCfg) (sim : String → String → ℚ)
    (now : ℤ) (i : ℕ) (js : List ℕ) (st : CompState) (n : ℕ) :
    geti (compInner cfg sim now i js st) n = geti st n := by
  unfold geti
  rw [compInner_low_core]

/-- Key invariant of the inner compression loop: for every index `j` it
visits, if both the `i`-th and the `j`-th snapshot entries end up *not*
discarded, their restatements were found dissimilar. -/
theorem compInner_dissim (cfg : ForgettingCfg) (sim : String → String → ℚ)
    (now : ℤ) (i : ℕ) (js : List ℕ) (st : CompState) :
    ∀ j ∈ js, ∀ pi pj, geti st i = some pi → geti st j = some pj →
      pi.1 ∉ (compInner cfg sim now i js st).merged →
      pj.1 ∉ (compInner cfg sim now i js st).merged →
      sim pi.2.1 pj.2.1 ≤ cfg.similarity_threshold := by
  induction js generalizing st with
  | nil => intro j hj; cases hj
  | cons j0 rest ih =>
    intro j hj pi pj hpi hpj hpi2 hpj2
    rcases hgi : st.low.get? i with _ | ei
    · rw [geti_eq, hgi] at hpi
      cases hpi
    · rcases hgj0 : st.low.get? j0 with _ | ej0
      · have hstep : compInner cfg sim now i (j0 :: rest) st =
            compInner cfg sim now i rest st := by
          simp only [compInner, hgi, hgj0]
        rcases List.mem_cons.mp hj with rfl | hj2
        · rw [geti_eq, hgj0] at hpj
          cases hpj
        · rw [hstep] at hpi2 hpj2
          exact ih st j hj2 pi pj hpi hpj hpi2 hpj2
      · by_cases hm : st.merged.contains ej0.1.id = true
        · have hstep : compInner cfg sim now i (j0 :: rest) st =
              compInner cfg sim now i rest st := by
            simp only [compInner, hgi, hgj0]
            rw [if_pos hm]
          rcases List.mem_cons.mp hj with rfl | hj2
          · rw [geti_eq, hgj0] at hpj
            have hpjeq : pj = lowCore ej0 := (Option.some.inj hpj).symm
            rw [hstep] at hpj2
            have hmem : ej0.1.id ∈ st.merged := by simpa using hm
            have hfin : ej0.1.id ∈ (compInner cfg sim now i rest st).merged :=
              compInner_merged_mono cfg sim now i rest st hmem
            rw [hpjeq] at hpj2
            exact absurd hfin hpj2
          · rw [hstep] at hpi2 hpj2
            exact ih st j hj2 pi pj hpi hpj hpi2 hpj2
        · by_cases hs : sim ei.1.lossless_restatement ej0.1.lossless_restatement >
              cfg.similarity_threshold
          · have hstep : compInner cfg sim now i (j0 :: rest) st =
                compInner cfg sim now i rest (compMerge now ei ej0 st) := by
              simp only [compInner, hgi, hgj0]
              rw [if_neg hm, if_pos hs]
            rcases List.mem_cons.mp hj with rfl | hj2
            · rw [geti_eq, hgi] at hpi
              rw [geti_eq, hgj0] at hpj
              have hpieq : pi = lowCore ei := (Option.some.inj hpi).symm
              have hpjeq : pj = lowCore ej0 := (Option.some.inj hpj).symm
              have hdisc : (if ei.2 ≥ ej0.2 then ej0 else ei).1.id ∈
                  (compMerge now ei ej0 st).merged := by
                rw [compMerge_merged]
                exact List.mem_cons_self _ _
              have hfin := compInner_merged_mono cfg sim now i rest
                (compMerge now ei ej0 st) hdisc
              rw [hstep] at hpi2 hpj2
              by_cases hge : ei.2 ≥ ej0.2
              · rw [if_pos hge] at hfin
                rw [hpjeq] at hpj2
                exact absurd hfin hpj2
              · rw [if_neg hge] at hfin
                rw [hpieq] at hpi2
                exact absurd hfin hpi2
            · rw [hstep] at hpi2 hpj2
              have hti : geti (compMerge now ei ej0 st) i = some pi := by
                rw [geti_compMerge]
                exact hpi
              have htj : geti (compMerge now ei ej0 st) j = some pj := by
                rw [geti_compMerge]
                exact hpj
              exact ih (compMerge now ei ej0 st) j hj2 pi pj hti htj hpi2 hpj2
          · have hstep : compInner cfg sim now i (j0 :: rest) st =
                compInner cfg sim now i rest st := by
              simp only [compInner, hgi, hgj0]
              rw [if_neg hm, if_neg hs]
            rcases List.mem_cons.mp hj with rfl | hj2
            · rw [geti_eq, hgi] at hpi
              rw [geti_eq, hgj0] at hpj
              have hpieq : pi = lowCore ei := (Option.some.inj hpi).symm
              have hpjeq : pj = lowCore ej0 := (Option.some.inj hpj).symm
              rw [hpieq, hpjeq]
              exact not_lt.mp hs
            · rw [hstep] at hpi2 hpj2
              exact ih st j hj2 pi pj hpi hpj hpi2 hpj2

/-- The inner loop makes no change at all when every pair it would
compare is dissimilar. -/
theorem compInner_no_merge (cfg : ForgettingCfg) (sim : String → String → ℚ)
    (now : ℤ) (i : ℕ) (js : List ℕ) (st : CompState)
    (h : ∀ j ∈ js, ∀ ei ej, st.low.get? i = some ei → st.low.get? j = some ej →
      sim ei.1.lossless_restatement ej.1.lossless_restatement ≤
        cfg.similarity_threshold) :
    compInner cfg sim now i js st = st := by
  induction js with
  | nil => rfl
  | cons j0 rest ih =>
    have hrest : ∀ j ∈ rest, ∀ ei ej, st.low.get? i = some ei →
        st.low.get? j = some ej →
        sim ei.1.lossless_restatement ej.1.lossless_restatement ≤
          cfg.similarity_threshold :=
      fun j hj => h j (List.mem_cons_of_mem _ hj)
    rcases hgi : st.low.get? i with _ | ei <;>
      rcases hgj0 : st.low.get? j0 with _ | ej0 <;>
      simp only [compInner, hgi, hgj0]
    · exact ih hrest
    · exact ih hrest
    · exact ih hrest
    · by_cases hm : st.merged.contains ej0.1.id = true
      · rw [if_pos hm]
        exact ih hrest
      · rw [if_neg hm,
          if_neg (not_lt.mpr (h j0 (List.mem_cons_self _ _) ei ej0 hgi hgj0))]
        exact ih hrest

theorem compOuter_low_core (cfg : ForgettingCfg) (sim : String → String → ℚ)
    (now : ℤ) (is2 : List ℕ) (st : CompState) :
    (compOuter cfg sim now is2 st).low.map lowCore = st.low.map lowCore := by
  induction is2 generalizing st with
  | nil => rfl
  | cons i0 rest ih =>
    rcases hgi0 : st.low.get? i0 with _ | ei0 <;>
      simp only [compOuter, hgi0]
    · exact ih st
    · by_cases hm : st.merged.contains ei0.1.id = true
      · rw [if_pos hm]
        exact ih st
      · rw [if_neg hm, ih, compInner_low_core]

theorem geti_compOuter (cfg : ForgettingCfg) (sim : String → String → ℚ)
    (now : ℤ) (is2 : List ℕ) (st : CompState) (n : ℕ) :
    geti (compOuter cfg sim now is2 st) n = geti st n := by
  unfold geti
  rw [compOuter_low_core]

theorem compOuter_merged_mono (cfg : ForgettingCfg) (sim : String → String → ℚ)
    (now : ℤ) (is2 : List ℕ) (st : CompState) {x : String}
    (hx : x ∈ st.merged) : x ∈ (compOuter cfg sim now is2 st).merged := by
  induction is2 generalizing st with
  | nil => exact hx
  | cons i0 rest ih =>
    rcases hgi0 : st.low.get? i0 with _ | ei0 <;>
      simp only [compOuter, hgi0]
    · exact ih st hx
    · by_cases hm : st.merged.contains ei0.1.id = true
      · rw [if_pos hm]
        exact ih st hx
      · rw [if_neg hm]
        exact ih _ (compInner_merged_mono cfg sim now i0 _ st hx)

theorem compOuter_mergedArchived (cfg : ForgettingCfg)
    (sim : String → String → ℚ) (now : ℤ) (is2 : List ℕ) {st : CompState}
    (h : MergedArchived st) : MergedArchived (compOuter cfg sim now is2 st) := by
  induction is2 generalizing st with
  | nil => exact h
  | cons i0 rest ih =>
    rcases hgi0 : st.low.get? i0 with _ | ei0 <;>
      simp only [compOuter, hgi0]
    · exact ih h
    · by_cases hm : st.merged.contains ei0.1.id = true
      · rw [if_pos hm]
        exact ih h
      · rw [if_neg hm]
        exact ih (compInner_mergedArchived cfg sim now i0 _ h)

theorem compOuter_store_evolves (cfg : ForgettingCfg)
    (sim : String → String → ℚ) (now : ℤ) (is2 : List ℕ) (st : CompState) :
    EvolvedFrom st.store (compOuter cfg sim now is2 st).store := by
  induction is2 generalizing st with
  | nil => exact evolvedFrom_refl _
  | cons i0 rest ih =>
    rcases hgi0 : st.low.get? i0 with _ | ei0 <;>
      simp only [compOuter, hgi0]
    · exact ih st
    · by_cases hm : st.merged.contains ei0.1.id = true
      · rw [if_pos hm]
        exact ih st
      · rw [if_neg hm]
        exact evolvedFrom_trans (compInner_store_evolves cfg sim now i0 _ st)
          (ih _)

theorem compOuter_nodup (cfg : ForgettingCfg) (sim : String → String → ℚ)
    (now : ℤ) (is2 : List ℕ) {st : CompState} (h : nodupIds st.store) :
    nodupIds (compOuter cfg sim now is2 st).store := by
  induction is2 generalizing st with
  | nil => exact h
  | cons i0 rest ih =>
    rcases hgi0 : st.low.get? i0 with _ | ei0 <;>
      simp only [compOuter, hgi0]
    · exact ih h
    · by_cases hm : st.merged.contains ei0.1.id = true
      · rw [if_pos hm]
        exact ih h
      · rw [if_neg hm]
        exact ih (compInner_nodup cfg sim now i0 _ h)

/-- Key invariant of the outer compression loop: any two distinct
visited positions whose entries both survive (are never discarded) were
found dissimilar. -/
theorem compOuter_dissim (cfg : ForgettingCfg) (sim : String → String → ℚ)
    (now : ℤ) (is2 : List ℕ) (st : CompState) :
    ∀ i ∈ is2, ∀ j, i < j → ∀ pi pj, geti st i = some pi →
      geti st j = some pj →
      pi.1 ∉ (compOuter cfg sim now is2 st).merged →
      pj.1 ∉ (compOuter cfg sim now is2 st).merged →
      sim pi.2.1 pj.2.1 ≤ cfg.similarity_threshold := by
  induction is2 generalizing st with
  | nil => intro i hi; cases hi
  | cons i0 rest ih =>
    intro i hi j hij pi pj hpi hpj hpi2 hpj2
    rcases hgi0 : st.low.get? i0 with _ | ei0
    · have hstep : compOuter cfg sim now (i0 :: rest) st =
          compOuter cfg sim now rest st := by
        simp only [compOuter, hgi0]
      rcases List.mem_cons.mp hi with rfl | hi2
      · rw [geti_eq, hgi0] at hpi
        cases hpi
      · rw [hstep] at hpi2 hpj2
        exact ih st i hi2 j hij pi pj hpi hpj hpi2 hpj2
    · by_cases hm : st.merged.contains ei0.1.id = true
      · have hstep : compOuter cfg sim now (i0 :: rest) st =
            compOuter cfg sim now rest st := by
          simp only [compOuter, hgi0]
          rw [if_pos hm]
        rcases List.mem_cons.mp hi with rfl | hi2
        · rw [geti_eq, hgi0] at hpi
          have hpieq : pi = lowCore ei0 := (Option.some.inj hpi).symm
          rw [hstep] at hpi2
          have hmem : ei0.1.id ∈ st.merged := by simpa using hm
          have hfin : ei0.1.id ∈ (compOuter cfg sim now rest st).merged :=
            compOuter_merged_mono cfg sim now rest st hmem
          rw [hpieq] at hpi2
          exact absurd hfin hpi2
        · rw [hstep] at hpi2 hpj2
          exact ih st i hi2 j hij pi pj hpi hpj hpi2 hpj2
      · have hstep : compOuter cfg sim now (i0 :: rest) st =
            compOuter cfg sim now rest
              (compInner cfg sim now i0
                (List.range' (i0 + 1) (st.low.length - (i0 + 1))) st) := by
          simp only [compOuter, hgi0]
          rw [if_neg hm]
        rcases List.mem_cons.mp hi with rfl | hi2
        · -- the head index: use the inner-loop invariant
          have hjlen : j < st.low.length := by
            have := List.get?_eq_some.mp hpj
            obtain ⟨hlt, _⟩ := this
            simpa using hlt
          have hilen : i < st.low.length := by
            have := List.get?_eq_some.mp hpi
            obtain ⟨hlt, _⟩ := this
            simpa using hlt
          have hjmem : j ∈ List.range' (i + 1) (st.low.length - (i + 1)) :=
            List.mem_range'_1.mpr ⟨by omega, by omega⟩
          rw [hstep] at hpi2 hpj2
          have hpi3 : pi.1 ∉ (compInner cfg sim now i
              (List.range' (i + 1) (st.low.length - (i + 1))) st).merged :=
            fun hc => hpi2 (compOuter_merged_mono cfg sim now rest _ hc)
          have hpj3 : pj.1 ∉ (compInner cfg sim now i
              (List.range' (i + 1) (st.low.length - (i + 1))) st).merged :=
            fun hc => hpj2 (compOuter_merged_mono cfg sim now rest _ hc)
          exact compInner_dissim cfg sim now i _ st j hjmem pi pj hpi hpj
            hpi3 hpj3
        · rw [hstep] at hpi2 hpj2
          refine ih _ i hi2 j hij pi pj ?_ ?_ hpi2 hpj2
          · rw [geti_compInner]
            exact hpi
          · rw [geti_compInner]
            exact hpj

/-- The outer loop makes no change when every ordered pair of snapshot
entries is dissimilar. -/
theorem compOuter_no_merge (cfg : ForgettingCfg) (sim : String → String → ℚ)
    (now : ℤ) (is2 : List ℕ) (st : CompState)
    (h : ∀ i j, i < j → ∀ ei ej, st.low.get? i = some ei →
      st.low.get? j = some ej →
      sim ei.1.lossless_restatement ej.1.lossless_restatement ≤
        cfg.similarity_threshold) :
    compOuter cfg sim now is2 st = st := by
  induction is2 with
  | nil => rfl
  | cons i0 rest ih =>
    rcases hgi0 : st.low.get? i0 with _ | ei0 <;>
      simp only [compOuter, hgi0]
    · exact ih
    · by_cases hm : st.merged.contains ei0.1.id = true
      · rw [if_pos hm]
        exact ih
      · rw [if_neg hm]
        rw [compInner_no_merge cfg sim now i0 _ st ?_]
        · exact ih
        · intro j hj ei ej hgi hgj
          have hjgt : i0 < j := by
            have := List.mem_range'_1.mp hj
            omega
          exact h i0 j hjgt ei ej hgi hgj

theorem compressSimilarSt_store_evolves (cfg : ForgettingCfg)
    (sim : String → String → ℚ) (now : ℤ) (scored : List (EpDoc × ℚ))
    (store : Store) :
    EvolvedFrom store (compressSimilarSt cfg sim now scored store).store := by
  unfold compressSimilarSt
  by_cases h : (scored.filter
      (fun p => p.2 < cfg.importance_threshold * 2)).length < 2
  · rw [if_pos h]
    exact evolvedFrom_refl _
  · rw [if_neg h]
    exact compOuter_store_evolves cfg sim now _ _

theorem compressSimilarSt_nodup (cfg : ForgettingCfg)
    (sim : String → String → ℚ) (now : ℤ) (scored : List (EpDoc × ℚ))
    {store : Store} (hn : nodupIds store) :
    nodupIds (compressSimilarSt cfg sim now scored store).store := by
  unfold compressSimilarSt
  by_cases h : (scored.filter
      (fun p => p.2 < cfg.importance_threshold * 2)).length < 2
  · rw [if_pos h]
    exact hn
  · rw [if_neg h]
    exact compOuter_nodup cfg sim now _ hn

theorem compressSimilarSt_mergedArchived (cfg : ForgettingCfg)
    (sim : String → String → ℚ) (now : ℤ) (scored : List (EpDoc × ℚ))
    (store : Store) :
    MergedArchived (compressSimilarSt cfg sim now scored store) := by
  unfold compressSimilarSt
  by_cases h : (scored.filter
      (fun p => p.2 < cfg.importance_threshold * 2)).length < 2
  · rw [if_pos h]
    intro x hx
    cases hx
  · rw [if_neg h]
    refine compOuter_mergedArchived cfg sim now _ ?_
    intro x hx
    cases hx

/-- Any two distinct candidates of the compression band that both
survive the compression pass were found dissimilar. -/
theorem compressSimilarSt_dissim (cfg : ForgettingCfg)
    (sim : String → String → ℚ) (now : ℤ) (scored : List (EpDoc × ℚ))
    (store : Store) (hsym : ∀ a b, sim a b = sim b a) {p q : ℕ}
    {pi pj : String × String × ℚ} (hne : p ≠ q)
    (hpi : ((scored.filter
      (fun x => x.2 < cfg.importance_threshold * 2)).map lowCore).get? p =
        some pi)
    (hpj : ((scored.filter
      (fun x => x.2 < cfg.importance_threshold * 2)).map lowCore).get? q =
        some pj)
    (hpi2 : pi.1 ∉ (compressSimilarSt cfg sim now scored store).merged)
    (hpj2 : pj.1 ∉ (compressSimilarSt cfg sim now scored store).merged) :
    sim pi.2.1 pj.2.1 ≤ cfg.similarity_threshold := by
  have hplen : p < (scored.filter
      (fun x => x.2 < cfg.importance_threshold * 2)).length := by
    have := List.get?_eq_some.mp hpi
    obtain ⟨hlt, _⟩ := this
    simpa using hlt
  have hqlen : q < (scored.filter
      (fun x => x.2 < cfg.importance_threshold * 2)).length := by
    have := List.get?_eq_some.mp hpj
    obtain ⟨hlt, _⟩ := this
    simpa using hlt
  unfold compressSimilarSt at hpi2 hpj2
  by_cases h : (scored.filter
      (fun p => p.2 < cfg.importance_threshold * 2)).length < 2
  · exact absurd h (by omega)
  · rw [if_neg h] at hpi2 hpj2
    rcases lt_trichotomy p q with hpq | hpq | hpq
    · exact compOuter_dissim cfg sim now _
        { low := scored.filter (fun x => x.2 < cfg.importance_threshold * 2),
          store := store, merged := [], count := 0 }
        p (List.mem_range.mpr hplen) q hpq pi pj hpi hpj hpi2 hpj2
    · exact absurd hpq hne
    · rw [hsym]
      exact compOuter_dissim cfg sim now _
        { low := scored.filter (fun x => x.2 < cfg.importance_threshold * 2),
          store := store, merged := [], count := 0 }
        q (List.mem_range.mpr hqlen) p hpq pj pi hpj hpi hpj2 hpi2

/-- The compression pass changes nothing when all band pairs are
dissimilar. -/
theorem compressSimilar_no_merge (cfg : ForgettingCfg)
    (sim : String → String → ℚ) (now : ℤ) (scored : List (EpDoc × ℚ))
    (store : Store)
    (h : ∀ p q, p < q → ∀ ei ej,
      (scored.filter (fun x => x.2 < cfg.importance_threshold * 2)).get? p =
        some ei →
      (scored.filter (fun x => x.2 < cfg.importance_threshold * 2)).get? q =
        some ej →
      sim ei.1.lossless_restatement ej.1.lossless_restatement ≤
        cfg.similarity_threshold) :
    compressSimilar cfg sim now scored store = (0, store) := by
  unfold compressSimilar compressSimilarSt
  by_cases hlen : (scored.filter
      (fun p => p.2 < cfg.importance_threshold * 2)).length < 2
  · rw [if_pos hlen]
  · rw [if_neg hlen, compOuter_no_merge cfg sim now _ _ (fun i j hij ei ej
      hgi hgj => h i j hij ei ej hgi hgj)]

theorem thresholdStep_evolves (cfg : ForgettingCfg) (now : ℤ)
    (acc : Store × VecStore × ℕ × ℕ) (p : EpDoc × ℚ) :
    EvolvedFrom acc.1 (thresholdStep cfg now acc p).1 := by
  unfold thresholdStep
  by_cases h1 : p.2 < cfg.importance_threshold
  · rw [if_pos h1]
    by_cases h2 : cfg.archive_instead_of_delete = true
    · rw [if_pos h2]
      exact archiveId_evolves now _ _
    · rw [if_neg h2]
      exact deleteId_evolves _ _
  · rw [if_neg h1]
    exact evolvedFrom_refl _

theorem thresholdFold_evolves (cfg : ForgettingCfg) (now : ℤ)
    (scored : List (EpDoc × ℚ)) (acc : Store × VecStore × ℕ × ℕ) :
    EvolvedFrom acc.1 (scored.foldl (thresholdStep cfg now) acc).1 := by
  induction scored generalizing acc with
  | nil => exact evolvedFrom_refl _
  | cons p rest ih =>
    exact evolvedFrom_trans (thresholdStep_evolves cfg now acc p) (ih _)

theorem thresholdStep_allArchived (cfg : ForgettingCfg) (now : ℤ)
    (acc : Store × VecStore × ℕ × ℕ) (p : EpDoc × ℚ) {i : String}
    (h : AllArchived i acc.1) :
    AllArchived i (thresholdStep cfg now acc p).1 := by
  unfold thresholdStep
  by_cases h1 : p.2 < cfg.importance_threshold
  · rw [if_pos h1]
    by_cases h2 : cfg.archive_instead_of_delete = true
    · rw [if_pos h2]
      exact allArchived_archiveId now _ _ h
    · rw [if_neg h2]
      exact allArchived_deleteId _ _ h
  · rw [if_neg h1]
    exact h

theorem thresholdFold_allArchived (cfg : ForgettingCfg) (now : ℤ)
    (scored : List (EpDoc × ℚ)) (acc : Store × VecStore × ℕ × ℕ)
    {i : String} (h : AllArchived i acc.1) :
    AllArchived i (scored.foldl (thresholdStep cfg now) acc).1 := by
  induction scored generalizing acc with
  | nil => exact h
  | cons p rest ih =>
    exact ih _ (thresholdStep_allArchived cfg now acc p h)

/-- Every scanned memory scored below the threshold ends the threshold
pass with no active document under its id (archived in archive mode,
removed in delete mode). -/
theorem thresholdFold_archives (cfg : ForgettingCfg) (now : ℤ)
    (scored : List (EpDoc × ℚ)) (acc : Store × VecStore × ℕ × ℕ)
    {m : EpDoc} {sc : ℚ} (hm : (m, sc) ∈ scored)
    (hsc : sc < cfg.importance_threshold) :
    AllArchived m.id (scored.foldl (thresholdStep cfg now) acc).1 := by
  induction scored generalizing acc with
  | nil => cases hm
  | cons p rest ih =>
    rcases List.mem_cons.mp hm with rfl | hm2
    · refine thresholdFold_allArchived cfg now rest _ ?_
      unfold thresholdStep
      rw [if_pos hsc]
      by_cases h2 : cfg.archive_instead_of_delete = true
      · rw [if_pos h2]
        exact allArchived_archiveId_self now _ _
      · rw [if_neg h2]
        exact allArchived_deleteId_self _ _
    · exact ih _ hm2

theorem thresholdStep_nodup (cfg : ForgettingCfg) (now : ℤ)
    (acc : Store × VecStore × ℕ × ℕ) (p : EpDoc × ℚ)
    (h : nodupIds acc.1) : nodupIds (thresholdStep cfg now acc p).1 := by
  unfold thresholdStep
  by_cases h1 : p.2 < cfg.importance_threshold
  · rw [if_pos h1]
    by_cases h2 : cfg.archive_instead_of_delete = true
    · rw [if_pos h2]
      exact nodupIds_archiveId now _ h
    · rw [if_neg h2]
      exact nodupIds_deleteId _ h
  · rw [if_neg h1]
    exact h

theorem thresholdFold_nodup (cfg : ForgettingCfg) (now : ℤ)
    (scored : List (EpDoc × ℚ)) (acc : Store × VecStore × ℕ × ℕ)
    (h : nodupIds acc.1) :
    nodupIds (scored.foldl (thresholdStep cfg now) acc).1 := by
  induction scored generalizing acc with
  | nil => exact h
  | cons p rest ih =>
    exact ih _ (thresholdStep_nodup cfg now acc p h)

/-- The threshold pass is a no-op when no scanned memory scores below
the threshold. -/
theorem thresholdFold_noop (cfg : ForgettingCfg) (now : ℤ)
    (scored : List (EpDoc × ℚ)) (acc : Store × VecStore × ℕ × ℕ)
    (h : ∀ p ∈ scored, ¬(p.2 < cfg.importance_threshold)) :
    scored.foldl (thresholdStep cfg now) acc = acc := by
  induction scored generalizing acc with
  | nil => rfl
  | cons p rest ih =>
    have hstep : thresholdStep cfg now acc p = acc := by
      unfold thresholdStep
      rw [if_neg (h p (List.mem_cons_self _ _))]
    rw [List.foldl_cons, hstep]
    exact ih _ (fun q hq => h q (List.mem_cons_of_mem _ hq))

theorem noDoc_deleteId_self (i : String) (s : Store) :
    NoDoc i (deleteId i s) := by
  intro e he
  have := (List.mem_filter.mp he).2
  simpa using this

theorem noDoc_archiveId (now : ℤ) (i j : String) {s : Store}
    (h : NoDoc i s) : NoDoc i (archiveId now j s) := by
  intro e he
  rcases List.mem_map.mp he with ⟨d, hd, rfl⟩
  by_cases hj : d.id = j
  · rw [if_pos hj]
    exact h d hd
  · rw [if_neg hj]
    exact h d hd

theorem noDoc_compressMark (now : ℤ) (i j : String) (mf : List String)
    {s : Store} (h : NoDoc i s) : NoDoc i (compressMark now j mf s) := by
  intro e he
  rcases List.mem_map.mp he with ⟨d, hd, rfl⟩
  by_cases hj : d.id = j <;> simp [hj]
  · rw [← hj]
    exact h d hd
  · exact h d hd

theorem noDoc_deleteId (i j : String) {s : Store} (h : NoDoc i s) :
    NoDoc i (deleteId j s) :=
  fun e he => h e (List.mem_filter.mp he).1

theorem thresholdStep_noDoc (cfg : ForgettingCfg) (now : ℤ)
    (acc : Store × VecStore × ℕ × ℕ) (p : EpDoc × ℚ) {i : String}
    (h : NoDoc i acc.1) : NoDoc i (thresholdStep cfg now acc p).1 := by
  unfold thresholdStep
  by_cases h1 : p.2 < cfg.importance_threshold
  · rw [if_pos h1]
    by_cases h2 : cfg.archive_instead_of_delete = true
    · rw [if_pos h2]
      exact noDoc_archiveId now _ _ h
    · rw [if_neg h2]
      exact noDoc_deleteId _ _ h
  · rw [if_neg h1]
    exact h

theorem thresholdFold_noDoc (cfg : ForgettingCfg) (now : ℤ)
    (scored : List (EpDoc × ℚ)) (acc : Store × VecStore × ℕ × ℕ)
    {i : String} (h : NoDoc i acc.1) :
    NoDoc i (scored.foldl (thresholdStep cfg now) acc).1 := by
  induction scored generalizing acc with
  | nil => exact h
  | cons p rest ih => exact ih _ (thresholdStep_noDoc cfg now acc p h)

theorem vec_not_mem_vecDelete_self (i : String) (vs : VecStore) :
    i ∉ vecDelete i vs := by
  intro hc
  have := (List.mem_filter.mp hc).2
  simp at this

theorem vec_not_mem_vecDelete (i j : String) {vs : VecStore}
    (h : i ∉ vs) : i ∉ vecDelete j vs :=
  fun hc => h (List.mem_filter.mp hc).1

theorem thresholdStep_vec_not_mem (cfg : ForgettingCfg) (now : ℤ)
    (acc : Store × VecStore × ℕ × ℕ) (p : EpDoc × ℚ) {i : String}
    (h : i ∉ acc.2.1) : i ∉ (thresholdStep cfg now acc p).2.1 := by
  unfold thresholdStep
  by_cases h1 : p.2 < cfg.importance_threshold
  · rw [if_pos h1]
    by_cases h2 : cfg.archive_instead_of_delete = true
    · rw [if_pos h2]
      exact h
    · rw [if_neg h2]
      exact vec_not_mem_vecDelete _ _ h
  · rw [if_neg h1]
    exact h

theorem thresholdFold_vec_not_mem (cfg : ForgettingCfg) (now : ℤ)
    (scored : List (EpDoc × ℚ)) (acc : Store × VecStore × ℕ × ℕ)
    {i : String} (h : i ∉ acc.2.1) :
    i ∉ (scored.foldl (thresholdStep cfg now) acc).2.1 := by
  induction scored generalizing acc with
  | nil => exact h
  | cons p rest ih => exact ih _ (thresholdStep_vec_not_mem cfg now acc p h)

/-- In delete mode, a scanned memory scored below the threshold ends
the pass removed from the document store and from the vector index. -/
theorem thresholdFold_deletes (cfg : ForgettingCfg) (now : ℤ)
    (scored : List (EpDoc × ℚ)) (acc : Store × VecStore × ℕ × ℕ)
    (hmode : cfg.archive_instead_of_delete = false) {m : EpDoc} {sc : ℚ}
    (hm : (m, sc) ∈ scored) (hsc : sc < cfg.importance_threshold) :
    NoDoc m.id (scored.foldl (thresholdStep cfg now) acc).1 ∧
    m.id ∉ (scored.foldl (thresholdStep cfg now) acc).2.1 := by
  induction scored generalizing acc with
  | nil => cases hm
  | cons p rest ih =>
    rcases List.mem_cons.mp hm with rfl | hm2
    · have hstep1 : NoDoc m.id (thresholdStep cfg now acc (m, sc)).1 := by
        unfold thresholdStep
        rw [if_pos hsc, if_neg (by rw [hmode]; decide)]
        exact noDoc_deleteId_self _ _
      have hstep2 : m.id ∉ (thresholdStep cfg now acc (m, sc)).2.1 := by
        unfold thresholdStep
        rw [if_pos hsc, if_neg (by rw [hmode]; decide)]
        exact vec_not_mem_vecDelete_self _ _
      exact ⟨thresholdFold_noDoc cfg now rest _ hstep1,
        thresholdFold_vec_not_mem cfg now rest _ hstep2⟩
    · exact ih _ hm2

theorem noDoc_archiveFold (now : ℤ) (L : List EpDoc) (st : Store)
    {i : String} (h : NoDoc i st) :
    NoDoc i (L.foldl (fun s m => archiveId now m.id s) st) := by
  induction L generalizing st with
  | nil => exact h
  | cons a t ih => exact ih _ (noDoc_archiveId now _ _ h)

theorem allArchived_archiveFold (now : ℤ) (L : List EpDoc) (st : Store)
    {i : String} (h : AllArchived i st) :
    AllArchived i (L.foldl (fun s m => archiveId now m.id s) st) := by
  induction L generalizing st with
  | nil => exact h
  | cons a t ih => exact ih _ (allArchived_archiveId now _ _ h)

theorem evolvedFrom_archiveFold (now : ℤ) (L : List EpDoc) (st : Store) :
    EvolvedFrom st (L.foldl (fun s m => archiveId now m.id s) st) := by
  induction L generalizing st with
  | nil => exact evolvedFrom_refl _
  | cons a t ih =>
    exact evolvedFrom_trans (archiveId_evolves now a.id st) (ih _)

theorem nodupIds_archiveFold (now : ℤ) (L : List EpDoc) (st : Store)
    (h : nodupIds st) :
    nodupIds (L.foldl (fun s m => archiveId now m.id s) st) := by
  induction L generalizing st with
  | nil => exact h
  | cons a t ih => exact ih _ (nodupIds_archiveId now _ h)

theorem archiveId_activeCount (now : ℤ) (u : String) {st : Store}
    {d : EpDoc} (hn : nodupIds st) (hd : d ∈ st)
    (hact : activeFor u d = true) :
    activeCount (archiveId now d.id st) u = activeCount st u - 1 := by
  induction st with
  | nil => cases hd
  | cons a rest ih =>
    have hna : a.id ∉ rest.map (·.id) := by
      have := List.nodup_cons.mp hn
      simpa using this.1
    rcases List.mem_cons.mp hd with rfl | hd2
    · have hrest : rest.map (fun e => if e.id = d.id then { e with is_archived := true, updated_at := now } else e) = rest := by
        refine (List.map_congr_left ?_).trans (List.map_id rest)
        intro e he
        rw [if_neg (fun hc : e.id = d.id => hna (hc ▸ id_mem_of_mem he))]
        rfl
      have hfa : activeFor u { d with is_archived := true, updated_at := now } = false := by
        simp [activeFor]
      unfold activeCount activeDocs archiveId
      rw [List.map_cons, if_pos rfl, hrest, List.filter_cons, List.filter_cons]
      rw [hfa, hact]
      simp
    · have hne : a.id ≠ d.id :=
        fun hc : a.id = d.id => hna (hc ▸ id_mem_of_mem hd2)
      have hpos : 0 < activeCount rest u :=
        List.length_pos.mpr (List.ne_nil_of_mem (List.mem_filter.mpr ⟨hd2, hact⟩))
      have ihr := ih (List.nodup_cons.mp hn).2 hd2
      unfold activeCount activeDocs at hpos
      unfold activeCount activeDocs archiveId at ihr ⊢
      rw [List.map_cons, if_neg hne, List.filter_cons, List.filter_cons]
      by_cases hactA : activeFor u a = true
      · rw [hactA]
        simp only [if_true, List.length_cons]
        omega
      · simp only [Bool.not_eq_true] at hactA
        rw [hactA]
        simp only [Bool.false_eq_true, if_false]
        omega

theorem archiveFold_activeCount (now : ℤ) (u : String) (L : List EpDoc)
    (st : Store) (hn : nodupIds st) (hnL : (L.map (·.id)).Nodup)
    (hL : ∀ m ∈ L, m ∈ st ∧ activeFor u m = true) :
    activeCount (L.foldl (fun s m => archiveId now m.id s) st) u =
      activeCount st u - L.length := by
  induction L generalizing st with
  | nil => simp
  | cons a t ih =>
    obtain ⟨ha, hacta⟩ := hL a (List.mem_cons_self _ _)
    have hone := archiveId_activeCount now u hn ha hacta
    have hnat : (t.map (·.id)).Nodup := (List.nodup_cons.mp hnL).2
    have hna : a.id ∉ t.map (·.id) := by
      simpa using (List.nodup_cons.mp hnL).1
    have hn2 : nodupIds (archiveId now a.id st) := nodupIds_archiveId now _ hn
    have hL2 : ∀ m ∈ t, m ∈ archiveId now a.id st ∧ activeFor u m = true := by
      intro m hm
      obtain ⟨hmst, hmact⟩ := hL m (List.mem_cons_of_mem _ hm)
      have hmne : m.id ≠ a.id :=
        fun hc : m.id = a.id => hna (hc ▸ id_mem_of_mem hm)
      exact ⟨List.mem_map.mpr ⟨m, hmst, by rw [if_neg hmne]⟩, hmact⟩
    rw [List.foldl_cons, ih (archiveId now a.id st) hn2 hnat hL2, hone]
    simp only [List.length_cons]
    omega

theorem capacityPass_evolves (cfg : ForgettingCfg) (now : ℤ) (u : String)
    (store : Store) : EvolvedFrom store (capacityPass cfg now u store).1 := by
  simp only [capacityPass]
  by_cases h : activeCount store u > cfg.max_memories_per_user
  · rw [if_pos h]
    exact evolvedFrom_archiveFold now _ _
  · rw [if_neg h]
    exact evolvedFrom_refl _

theorem capacityPass_allArchived (cfg : ForgettingCfg) (now : ℤ) (u : String)
    (store : Store) {i : String} (h : AllArchived i store) :
    AllArchived i (capacityPass cfg now u store).1 := by
  simp only [capacityPass]
  by_cases hc : activeCount store u > cfg.max_memories_per_user
  · rw [if_pos hc]
    exact allArchived_archiveFold now _ _ h
  · rw [if_neg hc]
    exact h

theorem capacityPass_noDoc (cfg : ForgettingCfg) (now : ℤ) (u : String)
    (store : Store) {i : String} (h : NoDoc i store) :
    NoDoc i (capacityPass cfg now u store).1 := by
  simp only [capacityPass]
  by_cases hc : activeCount store u > cfg.max_memories_per_user
  · rw [if_pos hc]
    exact noDoc_archiveFold now _ _ h
  · rw [if_neg hc]
    exact h

theorem capacityPass_nodup (cfg : ForgettingCfg) (now : ℤ) (u : String)
    {store : Store} (h : nodupIds store) :
    nodupIds (capacityPass cfg now u store).1 := by
  simp only [capacityPass]
  by_cases hc : activeCount store u > cfg.max_memories_per_user
  · rw [if_pos hc]
    exact nodupIds_archiveFold now _ _ h
  · rw [if_neg hc]
    exact h

/-- After the capacity pass, the user's active count is within the cap. -/
theorem capacityPass_count (cfg : ForgettingCfg) (now : ℤ) (u : String)
    {store : Store} (hn : nodupIds store) :
    activeCount (capacityPass cfg now u store).1 u ≤
      cfg.max_memories_per_user := by
  simp only [capacityPass]
  by_cases h : activeCount store u > cfg.max_memories_per_user
  · rw [if_pos h]
    set L := (sortBy byImportanceAsc (activeDocs store u)).take
      (activeCount store u - cfg.max_memories_per_user) with hL
    have hsubl : ((activeDocs store u).map (·.id)).Sublist (store.map (·.id)) :=
      (List.filter_sublist store).map (·.id)
    have hnd1 : ((activeDocs store u).map (·.id)).Nodup := hn.sublist hsubl
    have hnd2 : ((sortBy byImportanceAsc (activeDocs store u)).map (·.id)).Nodup :=
      hnd1.perm ((sortBy_perm byImportanceAsc (activeDocs store u)).map (·.id)).symm
    have hndL : (L.map (·.id)).Nodup := by
      rw [hL, List.map_take]
      exact hnd2.sublist (List.take_sublist _ _)
    have hmemL : ∀ m ∈ L, m ∈ store ∧ activeFor u m = true := by
      intro m hm
      have hm2 : m ∈ sortBy byImportanceAsc (activeDocs store u) :=
        List.take_subset _ _ hm
      have hm3 : m ∈ activeDocs store u := mem_sortBy.mp hm2
      exact List.mem_filter.mp hm3
    have hlenL : L.length = activeCount store u - cfg.max_memories_per_user := by
      rw [hL, List.length_take, length_sortBy]
      unfold activeCount
      omega
    rw [archiveFold_activeCount now u L store hn hndL hmemL, hlenL]
    omega
  · rw [if_neg h]
    show activeCount store u ≤ cfg.max_memories_per_user
    omega

/-! ## run_forgetting_cycle: whole-cycle lemmas -/

theorem runCycle_eq_empty (cfg : ForgettingCfg) (sim : String → String → ℚ)
    (now : ℤ) (u : String) (store : Store) (vec : VecStore)
    (h : (scannedMemories cfg u store).isEmpty = true) :
    runForgettingCycle cfg sim now u store vec =
      ({ total_scanned := 0, memories_compressed := 0,
         memories_archived := 0, memories_deleted := 0 }, store, vec) := by
  simp only [runForgettingCycle]
  rw [if_pos h]

theorem runCycle_eq (cfg : ForgettingCfg) (sim : String → String → ℚ)
    (now : ℤ) (u : String) (store : Store) (vec : VecStore)
    (h : (scannedMemories cfg u store).isEmpty = false) :
    runForgettingCycle cfg sim now u store vec =
      ({ total_scanned := (scannedMemories cfg u store).length,
         memories_compressed :=
           (compressSimilar cfg sim now (scoredOf cfg now u store) store).1,
         memories_archived :=
           (thresholdPass cfg now (scoredOf cfg now u store)
             (compressSimilar cfg sim now (scoredOf cfg now u store) store).2
             vec).2.2.1 +
           (capacityPass cfg now u
             (thresholdPass cfg now (scoredOf cfg now u store)
               (compressSimilar cfg sim now (scoredOf cfg now u store) store).2
               vec).1).2,
         memories_deleted :=
           (thresholdPass cfg now (scoredOf cfg now u store)
             (compressSimilar cfg sim now (scoredOf cfg now u store) store).2
             vec).2.2.2 },
       (capacityPass cfg now u
         (thresholdPass cfg now (scoredOf cfg now u store)
           (compressSimilar cfg sim now (scoredOf cfg now u store) store).2
           vec).1).1,
       (thresholdPass cfg now (scoredOf cfg now u store)
         (compressSimilar cfg sim now (scoredOf cfg now u store) store).2
         vec).2.1) := by
  simp only [runForgettingCycle]
  rw [if_neg (by rw [h]; exact Bool.false_ne_true)]

theorem mem_scannedMemories {cfg : ForgettingCfg} {u : String}
    {store : Store} {m : EpDoc} (hm : m ∈ scannedMemories cfg u store) :
    m ∈ store ∧ activeFor u m = true := by
  unfold scannedMemories at hm
  exact List.mem_filter.mp
    (show m ∈ store.filter (activeFor u) from
      mem_sortBy.mp (List.mem_of_mem_take hm))

theorem scannedMemories_all {cfg : ForgettingCfg} {u : String} {store : Store}
    (hlim : activeCount store u ≤ cfg.max_memories_per_user * 2)
    {d : EpDoc} (hd : d ∈ store) (hact : activeFor u d = true) :
    d ∈ scannedMemories cfg u store := by
  unfold scannedMemories
  rw [List.take_all_of_le (by rw [length_sortBy]; exact hlim)]
  exact mem_sortBy.mpr (List.mem_filter.mpr ⟨hd, hact⟩)

theorem nodupIds_scannedMemories (cfg : ForgettingCfg) (u : String)
    {store : Store} (hn : nodupIds store) :
    ((scannedMemories cfg u store).map (·.id)).Nodup := by
  have hnd1 : ((activeDocs store u).map (·.id)).Nodup :=
    hn.sublist ((List.filter_sublist store).map (·.id))
  have hnd2 : ((sortBy byCreatedAsc (activeDocs store u)).map (·.id)).Nodup :=
    hnd1.perm ((sortBy_perm byCreatedAsc (activeDocs store u)).map (·.id)).symm
  unfold scannedMemories
  rw [List.map_take]
  exact hnd2.sublist (List.take_sublist _ _)

theorem runCycle_evolves (cfg : ForgettingCfg) (sim : String → String → ℚ)
    (now : ℤ) (u : String) (store : Store) (vec : VecStore) :
    EvolvedFrom store (runForgettingCycle cfg sim now u store vec).2.1 := by
  by_cases h : (scannedMemories cfg u store).isEmpty = true
  · rw [runCycle_eq_empty cfg sim now u store vec h]
    exact evolvedFrom_refl _
  · rw [runCycle_eq cfg sim now u store vec (by simpa using h)]
    show EvolvedFrom store (capacityPass cfg now u (thresholdPass cfg now
      (scoredOf cfg now u store)
      (compressSimilar cfg sim now (scoredOf cfg now u store) store).2
      vec).1).1
    refine evolvedFrom_trans
      (compressSimilarSt_store_evolves cfg sim now (scoredOf cfg now u store)
        store)
      (evolvedFrom_trans ?_ (capacityPass_evolves cfg now u _))
    exact thresholdFold_evolves cfg now (scoredOf cfg now u store) _

theorem runCycle_nodup (cfg : ForgettingCfg) (sim : String → String → ℚ)
    (now : ℤ) (u : String) (store : Store) (vec : VecStore)
    (hn : nodupIds store) :
    nodupIds (runForgettingCycle cfg sim now u store vec).2.1 := by
  by_cases h : (scannedMemories cfg u store).isEmpty = true
  · rw [runCycle_eq_empty cfg sim now u store vec h]
    exact hn
  · rw [runCycle_eq cfg sim now u store vec (by simpa using h)]
    show nodupIds (capacityPass cfg now u (thresholdPass cfg now
      (scoredOf cfg now u store)
      (compressSimilar cfg sim now (scoredOf cfg now u store) store).2
      vec).1).1
    exact capacityPass_nodup cfg now u (thresholdFold_nodup cfg now _ _
      (compressSimilarSt_nodup cfg sim now _ hn))

/-- Every below-threshold active memory of a within-scan-limit store
ends the cycle with no active document under its id. -/
theorem runCycle_archives_low (cfg : ForgettingCfg)
    (sim : String → String → ℚ) (now : ℤ) (u : String) (store : Store)
    (vec : VecStore) {d : EpDoc}
    (hlim : activeCount store u ≤ cfg.max_memories_per_user * 2)
    (hd : d ∈ store) (hact : activeFor u d = true)
    (hlow : calcEffectiveImportance cfg now d < cfg.importance_threshold) :
    AllArchived d.id (runForgettingCycle cfg sim now u store vec).2.1 := by
  have hdm : d ∈ scannedMemories cfg u store := scannedMemories_all hlim hd hact
  have hne : (scannedMemories cfg u store).isEmpty = false :=
    Bool.eq_false_iff.mpr
      (fun hc => List.ne_nil_of_mem hdm (List.isEmpty_iff.mp hc))
  rw [runCycle_eq cfg sim now u store vec hne]
  show AllArchived d.id (capacityPass cfg now u (thresholdPass cfg now
    (scoredOf cfg now u store)
    (compressSimilar cfg sim now (scoredOf cfg now u store) store).2
    vec).1).1
  refine capacityPass_allArchived cfg now u _ ?_
  have hmem : (d, calcEffectiveImportance cfg now d) ∈
      scoredOf cfg now u store := by
    unfold scoredOf
    exact List.mem_map.mpr ⟨d, hdm, rfl⟩
  exact thresholdFold_archives cfg now (scoredOf cfg now u store) _ hmem hlow

/-- In delete mode, every below-threshold active memory of a
within-scan-limit store is removed from both the document store and
the vector index. -/
theorem runCycle_deletes_low (cfg : ForgettingCfg)
    (sim : String → String → ℚ) (now : ℤ) (u : String) (store : Store)
    (vec : VecStore) {d : EpDoc}
    (hlim : activeCount store u ≤ cfg.max_memories_per_user * 2)
    (hd : d ∈ store) (hact : activeFor u d = true)
    (hlow : calcEffectiveImportance cfg now d < cfg.importance_threshold)
    (hmode : cfg.archive_instead_of_delete = false) :
    NoDoc d.id (runForgettingCycle cfg sim now u store vec).2.1 ∧
    d.id ∉ (runForgettingCycle cfg sim now u store vec).2.2 := by
  have hdm : d ∈ scannedMemories cfg u store := scannedMemories_all hlim hd hact
  have hne : (scannedMemories cfg u store).isEmpty = false :=
    Bool.eq_false_iff.mpr
      (fun hc => List.ne_nil_of_mem hdm (List.isEmpty_iff.mp hc))
  rw [runCycle_eq cfg sim now u store vec hne]
  have hmem : (d, calcEffectiveImportance cfg now d) ∈
      scoredOf cfg now u store := by
    unfold scoredOf
    exact List.mem_map.mpr ⟨d, hdm, rfl⟩
  have h := thresholdFold_deletes cfg now (scoredOf cfg now u store)
    ((compressSimilar cfg sim now (scoredOf cfg now u store) store).2,
      vec, 0, 0) hmode hmem hlow
  exact ⟨capacityPass_noDoc cfg now u _ h.1, h.2⟩

theorem runCycle_count (cfg : ForgettingCfg) (sim : String → String → ℚ)
    (now : ℤ) (u : String) (store : Store) (vec : VecStore)
    (hn : nodupIds store)
    (hlim : activeCount store u ≤ cfg.max_memories_per_user * 2) :
    activeCount (runForgettingCycle cfg sim now u store vec).2.1 u ≤
      cfg.max_memories_per_user := by
  by_cases h : (scannedMemories cfg u store).isEmpty = true
  · rw [runCycle_eq_empty cfg sim now u store vec h]
    show activeCount store u ≤ cfg.max_memories_per_user
    have h0 : scannedMemories cfg u store = [] := List.isEmpty_iff.mp h
    have hlen : min (cfg.max_memories_per_user * 2)
        (activeDocs store u).length = 0 := by
      have h1 := congrArg List.length h0
      simpa [scannedMemories, List.length_take, length_sortBy] using h1
    have hcnt : activeCount store u = (activeDocs store u).length := rfl
    omega
  · rw [runCycle_eq cfg sim now u store vec (by simpa using h)]
    show activeCount (capacityPass cfg now u (thresholdPass cfg now
      (scoredOf cfg now u store)
      (compressSimilar cfg sim now (scoredOf cfg now u store) store).2
      vec).1).1 u ≤ cfg.max_memories_per_user
    exact capacityPass_count cfg now u (thresholdFold_nodup cfg now _ _
      (compressSimilarSt_nodup cfg sim now _ hn))

/-- An active document of an evolved store descends from an active
document of the original store with the same core. -/
theorem evolved_active {s s2 : Store} (h : EvolvedFrom s s2) (u : String)
    {e : EpDoc} (he : e ∈ s2) (hact : activeFor u e = true) :
    ∃ d ∈ s, core e = core d ∧ activeFor u d = true := by
  obtain ⟨d, hd, hcore, hmono⟩ := h e he
  simp only [activeFor, Bool.and_eq_true, beq_iff_eq,
    Bool.not_eq_true'] at hact
  have hdarch : d.is_archived = false := by
    cases hda : d.is_archived
    · rfl
    · exact absurd ((hmono hda).symm.trans hact.2) (by decide)
  have huser : d.user_id = u := by
    obtain ⟨_, hu, _⟩ := core_fields hcore
    rw [← hu]
    exact hact.1
  exact ⟨d, hd, hcore, by simp [activeFor, huser, hdarch]⟩

/-- After a cycle on a within-scan-limit store, every remaining active
memory has effective importance at least the threshold. -/
theorem runCycle_active_high (cfg : ForgettingCfg)
    (sim : String → String → ℚ) (now : ℤ) (u : String) (store : Store)
    (vec : VecStore)
    (hlim : activeCount store u ≤ cfg.max_memories_per_user * 2)
    {e : EpDoc} (he : e ∈ (runForgettingCycle cfg sim now u store vec).2.1)
    (hact : activeFor u e = true) :
    cfg.importance_threshold ≤ calcEffectiveImportance cfg now e := by
  obtain ⟨d, hd, hcore, hdact⟩ :=
    evolved_active (runCycle_evolves cfg sim now u store vec) u he hact
  by_contra hlt
  push_neg at hlt
  have hlowd : calcEffectiveImportance cfg now d < cfg.importance_threshold := by
    rw [← eff_core_congr cfg now hcore]
    exact hlt
  have harch := runCycle_archives_low cfg sim now u store vec hlim hd hdact hlowd
  have heid : e.id = d.id := (core_fields hcore).1
  have hearch : e.is_archived = true := harch e he heid
  simp only [activeFor, Bool.and_eq_true, Bool.not_eq_true'] at hact
  exact absurd (hact.2.symm.trans hearch) (by decide)

/-- After a cycle on a within-scan-limit store, any two distinct active
survivors of the compression band were found dissimilar by the
similarity capability. -/
theorem runCycle_survivors_dissim (cfg : ForgettingCfg)
    (sim : String → String → ℚ) (now : ℤ) (u : String) (store : Store)
    (vec : VecStore) (hsym : ∀ a b, sim a b = sim b a)
    (hlim : activeCount store u ≤ cfg.max_memories_per_user * 2)
    {x y : EpDoc}
    (hx : x ∈ (runForgettingCycle cfg sim now u store vec).2.1)
    (hy : y ∈ (runForgettingCycle cfg sim now u store vec).2.1)
    (hxa : activeFor u x = true) (hya : activeFor u y = true)
    (hxb : calcEffectiveImportance cfg now x < cfg.importance_threshold * 2)
    (hyb : calcEffectiveImportance cfg now y < cfg.importance_threshold * 2)
    (hne : x.id ≠ y.id) :
    sim x.lossless_restatement y.lossless_restatement ≤
      cfg.similarity_threshold := by
  obtain ⟨dx, hdx, hcx, hdxa⟩ :=
    evolved_active (runCycle_evolves cfg sim now u store vec) u hx hxa
  obtain ⟨dy, hdy, hcy, hdya⟩ :=
    evolved_active (runCycle_evolves cfg sim now u store vec) u hy hya
  obtain ⟨hxid, _, hxrest, _, _, _⟩ := core_fields hcx
  obtain ⟨hyid, _, hyrest, _, _, _⟩ := core_fields hcy
  have hdne : dx.id ≠ dy.id := by
    rw [← hxid, ← hyid]
    exact hne
  have hdxb : calcEffectiveImportance cfg now dx <
      cfg.importance_threshold * 2 := by
    rw [← eff_core_congr cfg now hcx]
    exact hxb
  have hdyb : calcEffectiveImportance cfg now dy <
      cfg.importance_threshold * 2 := by
    rw [← eff_core_congr cfg now hcy]
    exact hyb
  have hmx : (dx, calcEffectiveImportance cfg now dx) ∈
      scoredOf cfg now u store := by
    unfold scoredOf
    exact List.mem_map.mpr ⟨dx, scannedMemories_all hlim hdx hdxa, rfl⟩
  have hmy : (dy, calcEffectiveImportance cfg now dy) ∈
      scoredOf cfg now u store := by
    unfold scoredOf
    exact List.mem_map.mpr ⟨dy, scannedMemories_all hlim hdy hdya, rfl⟩
  have hlx : (dx, calcEffectiveImportance cfg now dx) ∈
      (scoredOf cfg now u store).filter
        (fun p => p.2 < cfg.importance_threshold * 2) :=
    List.mem_filter.mpr ⟨hmx, decide_eq_true hdxb⟩
  have hly : (dy, calcEffectiveImportance cfg now dy) ∈
      (scoredOf cfg now u store).filter
        (fun p => p.2 < cfg.importance_threshold * 2) :=
    List.mem_filter.mpr ⟨hmy, decide_eq_true hdyb⟩
  obtain ⟨p, hp⟩ := List.get?_of_mem hlx
  obtain ⟨q, hq⟩ := List.get?_of_mem hly
  have hpq : p ≠ q := by
    intro hpq0
    rw [hpq0] at hp
    have hpair := Option.some.inj (hp.symm.trans hq)
    exact hdne (congrArg (fun z => z.1.id) hpair)
  have hpm : (((scoredOf cfg now u store).filter
      (fun p => p.2 < cfg.importance_threshold * 2)).map lowCore).get? p =
      some (lowCore (dx, calcEffectiveImportance cfg now dx)) := by
    rw [List.get?_map, hp]
    rfl
  have hqm : (((scoredOf cfg now u store).filter
      (fun p => p.2 < cfg.importance_threshold * 2)).map lowCore).get? q =
      some (lowCore (dy, calcEffectiveImportance cfg now dy)) := by
    rw [List.get?_map, hq]
    rfl
  have hnotarch : ∀ d2 ∈ store, activeFor u d2 = true →
      ∀ e2 ∈ (runForgettingCycle cfg sim now u store vec).2.1,
      e2.id = d2.id → activeFor u e2 = true →
      d2.id ∉ (compressSimilarSt cfg sim now
        (scoredOf cfg now u store) store).merged := by
    intro d2 hd2 hd2a e2 he2 heid he2a hmem
    have hal : AllArchived d2.id
        (compressSimilarSt cfg sim now (scoredOf cfg now u store) store).store :=
      compressSimilarSt_mergedArchived cfg sim now
        (scoredOf cfg now u store) store d2.id hmem
    have hne1 : (scannedMemories cfg u store).isEmpty = false :=
      Bool.eq_false_iff.mpr (fun hc => List.ne_nil_of_mem
        (scannedMemories_all hlim hd2 hd2a) (List.isEmpty_iff.mp hc))
    have h2 : AllArchived d2.id
        (runForgettingCycle cfg sim now u store vec).2.1 := by
      rw [runCycle_eq cfg sim now u store vec hne1]
      show AllArchived d2.id (capacityPass cfg now u (thresholdPass cfg now
        (scoredOf cfg now u store)
        (compressSimilar cfg sim now (scoredOf cfg now u store) store).2
        vec).1).1
      exact capacityPass_allArchived cfg now u _
        (thresholdFold_allArchived cfg now _ _ hal)
    have hae : e2.is_archived = true := h2 e2 he2 heid
    simp only [activeFor, Bool.and_eq_true, Bool.not_eq_true'] at he2a
    exact absurd (he2a.2.symm.trans hae) (by decide)
  have hxnm : (lowCore (dx, calcEffectiveImportance cfg now dx)).1 ∉
      (compressSimilarSt cfg sim now (scoredOf cfg now u store) store).merged :=
    hnotarch dx hdx hdxa x hx hxid hxa
  have hynm : (lowCore (dy, calcEffectiveImportance cfg now dy)).1 ∉
      (compressSimilarSt cfg sim now (scoredOf cfg now u store) store).merged :=
    hnotarch dy hdy hdya y hy hyid hya
  have hsim := compressSimilarSt_dissim cfg sim now (scoredOf cfg now u store)
    store hsym hpq hpm hqm hxnm hynm
  rw [hxrest, hyrest]
  exact hsim

/-- A cycle changes nothing on a store already within capacity whose
active memories all score at least the threshold and are pairwise
dissimilar inside the compression band. -/
theorem runCycle_noop (cfg : ForgettingCfg) (sim : String → String → ℚ)
    (now : ℤ) (u : String) (store : Store) (vec : VecStore)
    (hn : nodupIds store)
    (hcount : activeCount store u ≤ cfg.max_memories_per_user)
    (hhigh : ∀ e ∈ store, activeFor u e = true →
      cfg.importance_threshold ≤ calcEffectiveImportance cfg now e)
    (hdis : ∀ x ∈ store, ∀ y ∈ store, activeFor u x = true →
      activeFor u y = true →
      calcEffectiveImportance cfg now x < cfg.importance_threshold * 2 →
      calcEffectiveImportance cfg now y < cfg.importance_threshold * 2 →
      x.id ≠ y.id →
      sim x.lossless_restatement y.lossless_restatement ≤
        cfg.similarity_threshold) :
    runForgettingCycle cfg sim now u store vec =
      ({ total_scanned := (scannedMemories cfg u store).length,
         memories_compressed := 0, memories_archived := 0,
         memories_deleted := 0 }, store, vec) := by
  by_cases hemp : (scannedMemories cfg u store).isEmpty = true
  · rw [runCycle_eq_empty cfg sim now u store vec hemp,
      List.isEmpty_iff.mp hemp]
    rfl
  · have hemp2 : (scannedMemories cfg u store).isEmpty = false := by
      simpa using hemp
    have hnb : ∀ p ∈ scoredOf cfg now u store,
        ¬(p.2 < cfg.importance_threshold) := by
      intro p hp
      unfold scoredOf at hp
      obtain ⟨m, hm, rfl⟩ := List.mem_map.mp hp
      obtain ⟨hms, hma⟩ := mem_scannedMemories hm
      exact not_lt.mpr (hhigh m hms hma)
    have hcomp : compressSimilar cfg sim now (scoredOf cfg now u store) store =
        (0, store) := by
      refine compressSimilar_no_merge cfg sim now _ store ?_
      intro p q hpq ei ej hgp hgq
      have hei := List.get?_mem hgp
      have hej := List.get?_mem hgq
      obtain ⟨heis, heib⟩ := List.mem_filter.mp hei
      obtain ⟨hejs, hejb⟩ := List.mem_filter.mp hej
      obtain ⟨mi, hmi, heiq⟩ := List.mem_map.mp
        (show ei ∈ (scannedMemories cfg u store).map
          (fun m => (m, calcEffectiveImportance cfg now m)) from heis)
      obtain ⟨mj, hmj, hejq⟩ := List.mem_map.mp
        (show ej ∈ (scannedMemories cfg u store).map
          (fun m => (m, calcEffectiveImportance cfg now m)) from hejs)
      subst heiq
      subst hejq
      obtain ⟨hmis, hmia⟩ := mem_scannedMemories hmi
      obtain ⟨hmjs, hmja⟩ := mem_scannedMemories hmj
      have hib : calcEffectiveImportance cfg now mi <
          cfg.importance_threshold * 2 := of_decide_eq_true heib
      have hjb : calcEffectiveImportance cfg now mj <
          cfg.importance_threshold * 2 := of_decide_eq_true hejb
      have hmapnd : ((scoredOf cfg now u store).map
          (fun z => z.1.id)).Nodup := by
        unfold scoredOf
        rw [List.map_map]
        exact nodupIds_scannedMemories cfg u hn
      have hlownd : (((scoredOf cfg now u store).filter
          (fun z => z.2 < cfg.importance_threshold * 2)).map
            (fun z => z.1.id)).Nodup :=
        hmapnd.sublist ((List.filter_sublist _).map _)
      have hidne : mi.id ≠ mj.id := by
        intro hide
        have h1 : (((scoredOf cfg now u store).filter
            (fun z => z.2 < cfg.importance_threshold * 2)).map
              (fun z => z.1.id)).get? p = some mi.id := by
          rw [List.get?_map, hgp]
          rfl
        have h2 : (((scoredOf cfg now u store).filter
            (fun z => z.2 < cfg.importance_threshold * 2)).map
              (fun z => z.1.id)).get? q = some mj.id := by
          rw [List.get?_map, hgq]
          rfl
        have hplen : p < (((scoredOf cfg now u store).filter
            (fun z => z.2 < cfg.importance_threshold * 2)).map
              (fun z => z.1.id)).length := by
          rw [List.length_map]
          exact (List.get?_eq_some.mp hgp).1
        have hpq2 := List.get?_inj hplen hlownd
          (h1.trans (by rw [hide, ← h2]))
        omega
      exact hdis mi hmis mj hmjs hmia hmja hib hjb hidne
    have hthr : thresholdPass cfg now (scoredOf cfg now u store) store vec =
        (store, vec, 0, 0) :=
      thresholdFold_noop cfg now _ _ hnb
    have hthr2 : thresholdPass cfg now (scoredOf cfg now u store)
        (compressSimilar cfg sim now (scoredOf cfg now u store) store).2 vec =
        (store, vec, 0, 0) := by
      rw [hcomp]
      exact hthr
    have hcap : capacityPass cfg now u store = (store, 0) := by
      simp only [capacityPass]
      rw [if_neg (by omega)]
    have hcap2 : capacityPass cfg now u (thresholdPass cfg now
        (scoredOf cfg now u store)
        (compressSimilar cfg sim now (scoredOf cfg now u store) store).2
        vec).1 = (store, 0) := by
      rw [hthr2]
      exact hcap
    rw [runCycle_eq cfg sim now u store vec hemp2, hcap2, hthr2, hcomp]
    rfl

/-! ## Claims C6 and C7: the forgetting cycle -/

/-- **C6** (corrected).  Within the cycle's scan limit the claim holds:
if the user's active memories number at most `2 × max_memories_per_user`
(the cycle's scan limit), then every active memory whose effective
importance is below `importance_threshold` ends the cycle with no
active document under its id (it is archived; in archive mode this is
what archiving means, and in delete mode it is moreover hard-deleted
from both the document store and the vector index, second conjunct);
and the spec's 5-memory scenario holds exactly: importances
[0.1, 0.3, 0.5, 0.7, 0.9] with threshold 0.4, decay 1.0 and access
boost 0 yield `total_scanned = 5` and exactly the 0.1 and 0.3 memories
archived.  (Beyond the scan limit the original claim fails:
`claim_C6_counterexample`.) -/
theorem claim_C6_threshold_pass (cfg : ForgettingCfg)
    (sim : String → String → ℚ) (now : ℤ) (u : String) (store : Store)
    (vec : VecStore) (d : EpDoc)
    (hlim : activeCount store u ≤ cfg.max_memories_per_user * 2)
    (hd : d ∈ store) (hact : activeFor u d = true)
    (hlow : calcEffectiveImportance cfg now d < cfg.importance_threshold) :
    AllArchived d.id (runForgettingCycle cfg sim now u store vec).2.1 ∧
    (cfg.archive_instead_of_delete = false →
      NoDoc d.id (runForgettingCycle cfg sim now u store vec).2.1 ∧
      d.id ∉ (runForgettingCycle cfg sim now u store vec).2.2) ∧
    (runForgettingCycle scenCfg simZero 10 "u" scenStore []).1 =
      { total_scanned := 5, memories_compressed := 0,
        memories_archived := 2, memories_deleted := 0 } ∧
    (runForgettingCycle scenCfg simZero 10 "u" scenStore []).2.1.map
        (fun e => (e.id, e.is_archived)) =
      [("m1", true), ("m2", true), ("m3", false), ("m4", false),
       ("m5", false)] :=
  ⟨runCycle_archives_low cfg sim now u store vec hlim hd hact hlow,
   fun hmode =>
     runCycle_deletes_low cfg sim now u store vec hlim hd hact hlow hmode,
   by decide, by decide⟩

/-- Witness for `claim_C6_threshold_pass` on the 5-memory scenario:
the 0.1-importance memory `m1` is below the 0.4 threshold and ends the
cycle archived. -/
theorem claim_C6_threshold_pass_witness :
    activeCount scenStore "u" ≤ scenCfg.max_memories_per_user * 2 ∧
    calcEffectiveImportance scenCfg 10 (mkDoc "m1" "u" (1/10) 0 1) <
      scenCfg.importance_threshold ∧
    AllArchived "m1" (runForgettingCycle scenCfg simZero 10 "u" scenStore
      []).2.1 :=
  ⟨by decide, by decide,
   (claim_C6_threshold_pass scenCfg simZero 10 "u" scenStore []
     (mkDoc "m1" "u" (1/10) 0 1) (by decide) (by decide) (by decide)
     (by decide)).1⟩

set_option maxRecDepth 400000 in
/-- **C6 counterexample.**  The scan limit breaks the unconditional
claim: `bigStore` holds 201 active memories of user `u` — one more than
`bigCfg`'s scan limit `2 × 100` — and after a full forgetting cycle the
unscanned memory `x` is still active even though its effective
importance 0.23 is below the threshold 0.25 (the capacity pass archives
the 101 access-boosted 0.21-importance memories instead, since stored
importance, not effective importance, orders the overflow). -/
theorem claim_C6_counterexample :
    bigCfg.archive_instead_of_delete = true ∧
    activeCount bigStore "u" = 201 ∧
    bigCfg.max_memories_per_user * 2 = 200 ∧
    ∃ d, findById (runForgettingCycle bigCfg simZero 1000 "u" bigStore
        []).2.1 "x" = some d ∧
      activeFor "u" d = true ∧
      calcEffectiveImportance bigCfg 1000 d < bigCfg.importance_threshold :=
  ⟨by decide, by decide, by decide,
   mkDoc "x" "u" (23/100) 0 300, by decide, by decide, by decide⟩

/-- **C7** (corrected).  `run_forgetting_cycle` is idempotent provided
the store's ids are duplicate-free, the similarity capability is
symmetric, and the user's active memories fit in the cycle's scan limit
`2 × max_memories_per_user`: a second run immediately after a first one
(same clock, no new memories) returns the first run's document store
and vector index unchanged and reports zero compressions, archives and
deletions.  (Beyond the scan limit idempotence fails:
`claim_C7_counterexample`.) -/
theorem claim_C7_idempotent (cfg : ForgettingCfg)
    (sim : String → String → ℚ) (now : ℤ) (u : String) (store : Store)
    (vec : VecStore) (hn : nodupIds store)
    (hsym : ∀ a b, sim a b = sim b a)
    (hlim : activeCount store u ≤ cfg.max_memories_per_user * 2) :
    (runForgettingCycle cfg sim now u
        (runForgettingCycle cfg sim now u store vec).2.1
        (runForgettingCycle cfg sim now u store vec).2.2).2 =
      (runForgettingCycle cfg sim now u store vec).2 ∧
    (runForgettingCycle cfg sim now u
        (runForgettingCycle cfg sim now u store vec).2.1
        (runForgettingCycle cfg sim now u store vec).2.2).1.memories_compressed
      = 0 ∧
    (runForgettingCycle cfg sim now u
        (runForgettingCycle cfg sim now u store vec).2.1
        (runForgettingCycle cfg sim now u store vec).2.2).1.memories_archived
      = 0 ∧
    (runForgettingCycle cfg sim now u
        (runForgettingCycle cfg sim now u store vec).2.1
        (runForgettingCycle cfg sim now u store vec).2.2).1.memories_deleted
      = 0 := by
  have hn1 := runCycle_nodup cfg sim now u store vec hn
  have hc1 := runCycle_count cfg sim now u store vec hn hlim
  have hhigh : ∀ e ∈ (runForgettingCycle cfg sim now u store vec).2.1,
      activeFor u e = true →
      cfg.importance_threshold ≤ calcEffectiveImportance cfg now e :=
    fun e he hact => runCycle_active_high cfg sim now u store vec hlim he hact
  have hdis : ∀ x ∈ (runForgettingCycle cfg sim now u store vec).2.1,
      ∀ y ∈ (runForgettingCycle cfg sim now u store vec).2.1,
      activeFor u x = true → activeFor u y = true →
      calcEffectiveImportance cfg now x < cfg.importance_threshold * 2 →
      calcEffectiveImportance cfg now y < cfg.importance_threshold * 2 →
      x.id ≠ y.id →
      sim x.lossless_restatement y.lossless_restatement ≤
        cfg.similarity_threshold :=
    fun x hx y hy hxa hya hxb hyb hne =>
      runCycle_survivors_dissim cfg sim now u store vec hsym hlim
        hx hy hxa hya hxb hyb hne
  have hnoop := runCycle_noop cfg sim now u
    (runForgettingCycle cfg sim now u store vec).2.1
    (runForgettingCycle cfg sim now u store vec).2.2
    hn1 hc1 hhigh hdis
  rw [hnoop]
  exact ⟨rfl, rfl, rfl, rfl⟩

/-- Witness for `claim_C7_idempotent`: a second forgetting cycle on the
5-memory scenario's result changes nothing. -/
theorem claim_C7_idempotent_witness :
    nodupIds scenStore ∧
    activeCount scenStore "u" ≤ scenCfg.max_memories_per_user * 2 ∧
    (runForgettingCycle scenCfg simZero 10 "u"
        (runForgettingCycle scenCfg simZero 10 "u" scenStore []).2.1
        (runForgettingCycle scenCfg simZero 10 "u" scenStore []).2.2).2 =
      (runForgettingCycle scenCfg simZero 10 "u" scenStore []).2 :=
  ⟨by decide, by decide,
   (claim_C7_idempotent scenCfg simZero 10 "u" scenStore [] (by decide)
     (fun a b => rfl) (by decide)).1⟩

set_option maxRecDepth 400000 in
/-- **C7 counterexample.**  Beyond the scan limit the cycle is not
idempotent: on `bigStore` (201 active memories, scan limit 200) the
first cycle leaves the unscanned below-threshold memory `x` active,
and the second cycle — now able to scan `x` — archives it, changing
the store. -/
theorem claim_C7_counterexample :
    (findById (runForgettingCycle bigCfg simZero 1000 "u" bigStore
        []).2.1 "x").map (fun d => d.is_archived) = some false ∧
    (findById (runForgettingCycle bigCfg simZero 1000 "u"
        (runForgettingCycle bigCfg simZero 1000 "u" bigStore []).2.1
        (runForgettingCycle bigCfg simZero 1000 "u" bigStore
          []).2.2).2.1 "x").map (fun d => d.is_archived) = some true :=
  ⟨by decide, by decide⟩

end SmartAgent2
